import Mathlib

/- Shallow embedding of the Pure-JS-Diagrammer layout engine
   (render/svg.js, render/flowchart.js, render/sequence.js, render/erd.js).
   JavaScript Maps are modelled as association lists, JS numbers as rationals
   (plus a small extended type capturing Infinity where Math.min over an empty
   spread matters), and DOM side effects are dropped: only the geometry,
   layering, wrapping and marker logic of the engine is represented. -/

set_option linter.unusedVariables false

namespace Diagrammer

/-- Lookup in an association list, mirroring JS Map.get (first matching key). -/
def alGet {ι β : Type} [DecidableEq ι] : List (ι × β) → ι → Option β
  | [], _ => none
  | p :: ps, k => if p.1 = k then some p.2 else alGet ps k

/-- Update in an association list, mirroring JS Map.set: overwrite the first
matching key in place, append when the key is absent. -/
def alSet {ι β : Type} [DecidableEq ι] : List (ι × β) → ι → β → List (ι × β)
  | [], k, v => [(k, v)]
  | p :: ps, k, v => if p.1 = k then (k, v) :: ps else p :: alSet ps k v

/-- Marker url chosen by render/erd.js getCardinalityMarker. The JS function
receives the cardinality string and the literal position string "start" or
"end". The source also splits the string on ".." into dead locals (parts,
firstChar, secondChar) that are never read; those have no observable effect
and are not represented. -/
def getCardinalityMarker (cardinality : String) (position : String) : String :=
  if position = "start" then
    if cardinality = "*..*" then "url(#oneToMany)" else "url(#one)"
  else
    if cardinality = "0..1" then "url(#zeroOrOne)"
    else if cardinality = "1..1" then "url(#one)"
    else if cardinality = "1..*" then "url(#oneToMany)"
    else if cardinality = "0..*" then "url(#zeroOrMany)"
    else if cardinality = "*..*" then "url(#oneToMany)"
    else "url(#one)"

/-- Axis-aligned rectangle as used for entity boxes, in source order
x, y, width, height. -/
structure Rect where
  x : ℚ
  y : ℚ
  width : ℚ
  height : ℚ
deriving DecidableEq

/-- A 2D point. -/
structure Pt where
  x : ℚ
  y : ℚ
deriving DecidableEq

/-- Connection point selection of render/erd.js getClosestConnectionPoints.
The source first fills p1/p2 through two side-classification if/else chains,
then unconditionally overwrites both with the final dominant-axis choice
(the comment in the source announces that heuristic); only the final,
observable assignment is represented here. -/
def getClosestConnectionPoints (rect1 rect2 : Rect) : Pt × Pt :=
  let c1x := rect1.x + rect1.width / 2
  let c1y := rect1.y + rect1.height / 2
  let c2x := rect2.x + rect2.width / 2
  let c2y := rect2.y + rect2.height / 2
  let dx := c2x - c1x
  let dy := c2y - c1y
  if |dx| > |dy| then
    ({ x := if dx > 0 then rect1.x + rect1.width else rect1.x, y := c1y },
     { x := if dx > 0 then rect2.x else rect2.x + rect2.width, y := c2y })
  else
    ({ x := c1x, y := if dy > 0 then rect1.y + rect1.height else rect1.y },
     { x := c2x, y := if dy > 0 then rect2.y else rect2.y + rect2.height })

/-- Greedy accumulation loop of render/svg.js wrapText. The JS loop keeps a
currentLine, tentatively appends the next word with a single space, keeps the
longer line while it still measures within maxWidth and otherwise flushes
currentLine and restarts from the word; the line list ends with a final push
of currentLine. Text is modelled as a list of characters and the injected
measurement capability as a pure function to a rational width. -/
def wrapLoop (measure : List Char → ℚ) (maxWidth : ℚ) :
    List Char → List (List Char) → List (List Char)
  | currentLine, [] => [currentLine]
  | currentLine, word :: ws =>
    if measure (currentLine ++ [' '] ++ word) ≤ maxWidth then
      wrapLoop measure maxWidth (currentLine ++ [' '] ++ word) ws
    else currentLine :: wrapLoop measure maxWidth word ws

/-- Wrap of render/svg.js wrapText: return the whole text as a single line
when it already fits, otherwise split on single spaces and run the greedy
loop seeded with the first word. String.split in JS never yields an empty
array, so the nil branch of the match is unreachable. -/
def wrapText (measure : List Char → ℚ) (maxWidth : ℚ) (text : List Char) :
    List (List Char) :=
  if measure text ≤ maxWidth then [text]
  else
    match text.splitOn ' ' with
    | [] => []
    | w :: ws => wrapLoop measure maxWidth w ws

/-- Extended JS number model: layout arithmetic stays rational, but Math.min
over an empty spread yields Infinity, which then propagates through the
viewBox arithmetic of the empty-input paths. Only that propagation needs the
extended values. -/
inductive JSNum where
  | fin : ℚ → JSNum
  | posInf : JSNum
  | negInf : JSNum
  | nan : JSNum
deriving DecidableEq

/-- JS unary minus on the extended numbers. -/
def JSNum.neg : JSNum → JSNum
  | fin q => fin (-q)
  | posInf => negInf
  | negInf => posInf
  | nan => nan

/-- JS addition on the extended numbers. -/
def JSNum.add : JSNum → JSNum → JSNum
  | nan, _ => nan
  | _, nan => nan
  | fin a, fin b => fin (a + b)
  | posInf, negInf => nan
  | negInf, posInf => nan
  | posInf, _ => posInf
  | negInf, _ => negInf
  | fin _, posInf => posInf
  | fin _, negInf => negInf

/-- JS subtraction on the extended numbers. -/
def JSNum.sub (a b : JSNum) : JSNum := a.add b.neg

/-- Math.min over a spread array: Infinity on the empty list, otherwise the
finite minimum. -/
def jsMinList : List ℚ → JSNum
  | [] => JSNum.posInf
  | x :: xs => JSNum.fin (xs.foldl min x)

/-- Uniform result shape of the three renderers: the success flag and the
four viewBox components x, y, width, height as JS numbers. -/
structure RenderResult where
  success : Bool
  viewBox : JSNum × JSNum × JSNum × JSNum
deriving DecidableEq

/-- Layout constants of render/erd.js. -/
def ENTITY_HEADER_HEIGHT : ℚ := 30

def ATTRIBUTE_HEIGHT : ℚ := 20

def ENTITY_PADDING_X : ℚ := 15

def ENTITY_PADDING_Y : ℚ := 10

def ENTITY_MIN_WIDTH : ℚ := 150

def ENTITY_MAX_WIDTH : ℚ := 300

def ENTITY_H_GAP : ℚ := 80

def ENTITY_V_GAP : ℚ := 80

def FONT_SIZE_ENTITY : ℚ := 16

def FONT_SIZE_ATTRIBUTE : ℚ := 14

def FONT_FAMILY : String := "sans-serif"

/-- One attribute row of an input entity. -/
structure Attribute where
  name : String
  type : String
  pk : Bool
  fk : Bool
  unique : Bool
deriving DecidableEq

/-- A caller-owned input entity. JS objects acquire the computed size fields
dynamically, so they are optional and none on a fresh input. -/
structure Entity where
  name : String
  attributes : List Attribute
  calculatedWidth : Option ℚ := none
  calculatedHeight : Option ℚ := none
deriving DecidableEq

/-- Attribute display text, name colon type, measured for the box width. -/
def attrLabel (a : Attribute) : String := a.name ++ ": " ++ a.type

/-- The fresh per-invocation entity record held in renderERD's entitiesMap:
the spread copy of a measured entity together with its position. -/
structure PEntity where
  name : String
  attributes : List Attribute
  calculatedWidth : ℚ
  calculatedHeight : ℚ
  x : ℚ
  y : ℚ
deriving DecidableEq

/-- The measuring forEach at the top of renderERD. The JS loop assigns
entity.calculatedWidth and entity.calculatedHeight directly onto each
caller-owned entity object before any copy is taken; this function is the
caller-visible state of data.entities after that loop. The injected
measurement capability takes text, font size and font family. -/
def erdMeasurePass (measure : String → ℚ → String → ℚ)
    (entities : List Entity) : List Entity :=
  entities.map (fun entity =>
    { entity with
      calculatedWidth := some (min ENTITY_MAX_WIDTH (max ENTITY_MIN_WIDTH
        ((entity.attributes.foldl
          (fun m a => max m (measure (attrLabel a) FONT_SIZE_ATTRIBUTE FONT_FAMILY))
          (measure entity.name FONT_SIZE_ENTITY FONT_FAMILY)) + ENTITY_PADDING_X * 2))),
      calculatedHeight := some (ENTITY_HEADER_HEIGHT +
        (entity.attributes.length : ℚ) * ATTRIBUTE_HEIGHT + ENTITY_PADDING_Y * 2) })

/-- The fresh positioned record renderERD stores in its entitiesMap for each
entity: a spread copy of the (already measured) entity plus x = 0, y = 0.
Both size fields are always some after the measuring pass, so the defaults
are never observable. -/
def toPositioned (e : Entity) : PEntity :=
  { name := e.name, attributes := e.attributes,
    calculatedWidth := e.calculatedWidth.getD 0,
    calculatedHeight := e.calculatedHeight.getD 0, x := 0, y := 0 }

/-- Array.from(entitiesMap.values()) where entitiesMap maps entity.name to
the fresh positioned copy: a name-keyed JS Map keeps first-insertion order
with last-write values. -/
def erdMapValues (entities : List Entity) : List PEntity :=
  (entities.foldl (fun m e => alSet m e.name (toPositioned e)) []).map Prod.snd

/-- The placement loop of render/erd.js layoutEntitiesGrid, with the mutable
currentX, currentY, rowMaxHeight and placedEntities threaded explicitly. An
entity wraps to a new row exactly when some entity was already placed and
currentX plus its width plus the gap exceeds 800 plus the gap. -/
def layoutEntitiesGridAux : List PEntity → ℚ → ℚ → ℚ → List PEntity → List PEntity
  | [], _, _, _, placed => placed
  | e :: es, currentX, currentY, rowMaxHeight, placed =>
    if 0 < placed.length ∧
        800 + ENTITY_H_GAP < currentX + e.calculatedWidth + ENTITY_H_GAP then
      layoutEntitiesGridAux es (0 + e.calculatedWidth + ENTITY_H_GAP)
        (currentY + rowMaxHeight + ENTITY_V_GAP) (max 0 e.calculatedHeight)
        (placed ++ [{ e with x := 0, y := currentY + rowMaxHeight + ENTITY_V_GAP }])
    else
      layoutEntitiesGridAux es (currentX + e.calculatedWidth + ENTITY_H_GAP) currentY
        (max rowMaxHeight e.calculatedHeight)
        (placed ++ [{ e with x := currentX, y := currentY }])

/-- render/erd.js layoutEntitiesGrid: return the empty list for no entities,
otherwise sort by name (the JS localeCompare sort, modelled as a stable
lexicographic sort) and run the placement loop from the origin. -/
def layoutEntitiesGrid (entities : List PEntity) : List PEntity :=
  if entities.length = 0 then []
  else
    layoutEntitiesGridAux
      (List.insertionSort (fun a b => a.name ≤ b.name) entities) 0 0 0 []

/-- Modelled from the spec's packing description, row shape: the run of
entities that continue the current row, taking each next entity while the
accumulated x plus its width plus gap stays within the row-width budget
(800 plus the gap). -/
def specRowTail : List PEntity → ℚ → List PEntity
  | [], _ => []
  | e :: es, accX =>
    if 800 + ENTITY_H_GAP < accX + e.calculatedWidth + ENTITY_H_GAP then []
    else e :: specRowTail es (accX + e.calculatedWidth + ENTITY_H_GAP)

/-- Modelled from the spec's packing description: split the sorted entity
list into greedy rows; a row always takes at least its first entity. -/
def specRows : List PEntity → List (List PEntity)
  | [] => []
  | e :: es =>
    (e :: specRowTail es (e.calculatedWidth + ENTITY_H_GAP)) ::
      specRows (es.drop (specRowTail es (e.calculatedWidth + ENTITY_H_GAP)).length)
termination_by l => l.length
decreasing_by
  simp only [List.length_cons, List.length_drop]
  omega

/-- Place one row left to right: each entity at the accumulated x, all at the
row's y. -/
def placeRowFrom : List PEntity → ℚ → ℚ → List PEntity
  | [], _, _ => []
  | e :: es, x, y =>
    { e with x := x, y := y } :: placeRowFrom es (x + e.calculatedWidth + ENTITY_H_GAP) y

/-- The tallest box height of a row (0 for an empty row). -/
def rowMaxHeightOf (row : List PEntity) : ℚ :=
  row.foldl (fun m e => max m e.calculatedHeight) 0

/-- Place rows top to bottom: each row at x = 0 and the running y, advancing
y by the row's tallest box plus the vertical gap. -/
def placeRowsFrom : List (List PEntity) → ℚ → List PEntity
  | [], _ => []
  | r :: rs, y =>
    placeRowFrom r 0 y ++ placeRowsFrom rs (y + rowMaxHeightOf r + ENTITY_V_GAP)

/-- Modelled from the spec's packing description as a whole: sort by name,
split into greedy rows, place rows top to bottom starting at the origin.
Compared against layoutEntitiesGrid, the definition translated from the
source. -/
def layoutEntitiesGridRows (entities : List PEntity) : List PEntity :=
  placeRowsFrom (specRows (List.insertionSort (fun a b => a.name ≤ b.name) entities)) 0

/-- Viewport of renderERD: the measuring pass, the fresh positioned copies,
the grid layout, then the running maxima from the entity drawing loop and
the viewBox computed from Math.min over the placed coordinates (padding 50).
Relationship drawing cannot influence the result: its dangling-reference
guard precedes any dereference and connector segments do not feed the
extent or the viewBox, so relationships are not parameters here. -/
def renderERD (measure : String → ℚ → String → ℚ) (entities : List Entity) :
    RenderResult :=
  let positioned := layoutEntitiesGrid (erdMapValues (erdMeasurePass measure entities))
  let maxX := positioned.foldl (fun m e => max m (e.x + e.calculatedWidth)) 0
  let maxY := positioned.foldl (fun m e => max m (e.y + e.calculatedHeight)) 0
  let minX := (jsMinList (positioned.map PEntity.x)).sub (JSNum.fin (50 / 2))
  let minY := (jsMinList (positioned.map PEntity.y)).sub (JSNum.fin (50 / 2))
  { success := true,
    viewBox := (minX, minY,
      ((JSNum.fin maxX).sub minX).add (JSNum.fin 50),
      ((JSNum.fin maxY).sub minY).add (JSNum.fin 50)) }

/-- Layout constants of render/flowchart.js. -/
def NODE_WIDTH : ℚ := 180

def NODE_HEIGHT : ℚ := 80

def H_GAP : ℚ := 80

def V_GAP : ℚ := 100

variable {ι : Type} [DecidableEq ι]

/-- The adjacency half of render/flowchart.js buildGraph: a Map seeded with
an empty list per node id, then one pass over the edges appending edge.to to
edge.from's list whenever both endpoints are keys. Node ids are an arbitrary
type with decidable equality (strings in the source). -/
def buildAdj (nodes : List ι) (edges : List (ι × ι)) : List (ι × List ι) :=
  edges.foldl
    (fun adj e =>
      if (alGet adj e.1).isSome ∧ (alGet adj e.2).isSome then
        alSet adj e.1 ((alGet adj e.1).getD [] ++ [e.2])
      else adj)
    (nodes.map (fun n => (n, ([] : List ι))))

/-- The in-degree half of buildGraph: a Map seeded with 0 per node id,
incremented at edge.to for each edge whose two endpoints are keys. Counts
are modelled as integers because the later Kahn loop decrements blindly. -/
def buildInDeg (nodes : List ι) (edges : List (ι × ι)) : List (ι × ℤ) :=
  edges.foldl
    (fun m e =>
      if (alGet m e.1).isSome ∧ (alGet m e.2).isSome then
        alSet m e.2 ((alGet m e.2).getD 0 + 1)
      else m)
    (nodes.map (fun n => (n, (0 : ℤ))))

/-- adj.get(u) with the empty default; every queued node is a key, so the
default is never observable in a run. -/
def adjOf (nodes : List ι) (edges : List (ι × ι)) (u : ι) : List ι :=
  (alGet (buildAdj nodes edges) u).getD []

/-- Total positive in-degree left in the map; the termination budget of the
Kahn loop. -/
def indegSum (m : List (ι × ℤ)) : ℕ := (m.map (fun p => p.2.toNat)).sum

/-- Inner forEach of the Kahn loop in assignLayers: for each neighbour v of
the dequeued node (whose layer is L), decrement v's in-degree; when the
stored value reaches exactly 0, assign v layer L + 1 and push it. The
decremented value is read back through the map exactly as the source does;
a missing key (impossible for adjacency built by buildGraph) leaves the map
unchanged and pushes nothing, as undefined minus 1 is NaN and never 0. -/
def stepNeighbors (L : ℕ) : List ι → List (ι × ℤ) → List (ι × ℕ) → List ι →
    List (ι × ℤ) × List (ι × ℕ) × List ι
  | [], indeg, assigned, pushed => (indeg, assigned, pushed)
  | v :: vs, indeg, assigned, pushed =>
    match alGet indeg v with
    | none => stepNeighbors L vs indeg assigned pushed
    | some d =>
      if d - 1 = 0 then
        stepNeighbors L vs (alSet indeg v (d - 1)) (assigned ++ [(v, L + 1)])
          (pushed ++ [v])
      else stepNeighbors L vs (alSet indeg v (d - 1)) assigned pushed

/-- The while loop of assignLayers over the growing queue q, with the
processed part q[0..head) and pending part q[head..) explicit. The source
loop terminates on its own because every node is pushed at most once; here
an explicit fuel argument makes the function structurally recursive, and
assignLayers supplies fuel that provably always suffices (the pending length
plus the remaining positive in-degree strictly decreases per iteration). -/
def kahnLoop (adj : ι → List ι) : ℕ → List ι → List ι → List (ι × ℤ) →
    List (ι × ℕ) → List ι × List (ι × ℤ) × List (ι × ℕ)
  | _, processed, [], indeg, assigned => (processed, indeg, assigned)
  | 0, processed, pending, indeg, assigned => (processed, indeg, assigned)
  | fuel + 1, processed, u :: rest, indeg, assigned =>
    kahnLoop adj fuel (processed ++ [u])
      (rest ++ (stepNeighbors ((alGet assigned u).getD 0) (adj u) indeg assigned []).2.2)
      (stepNeighbors ((alGet assigned u).getD 0) (adj u) indeg assigned []).1
      (stepNeighbors ((alGet assigned u).getD 0) (adj u) indeg assigned []).2.1

/-- Seed of Kahn's algorithm: the in-degree-0 keys in map iteration order,
each assigned layer 0. -/
def kahnSeed (indeg0 : List (ι × ℤ)) : List ι :=
  (indeg0.filter (fun p => p.2 = 0)).map Prod.fst

/-- The forward (Kahn) part of assignLayers: queue seeded with the sources
at layer 0, then the loop. Returns processed queue, final in-degree map and
the nodeLayers map in push order. -/
def kahnForward (nodes : List ι) (edges : List (ι × ι)) :
    List ι × List (ι × ℤ) × List (ι × ℕ) :=
  kahnLoop (adjOf nodes edges)
    ((kahnSeed (buildInDeg nodes edges)).length + indegSum (buildInDeg nodes edges))
    [] (kahnSeed (buildInDeg nodes edges)) (buildInDeg nodes edges)
    ((kahnSeed (buildInDeg nodes edges)).map (fun n => (n, 0)))

/-- The nodeLayers map produced by the forward pass alone. -/
def forwardLayers (nodes : List ι) (edges : List (ι × ι)) : List (ι × ℕ) :=
  (kahnForward nodes edges).2.2

/-- Math.max over the layers map keys, with -1 for the empty map. The keys
of the source's layers map are exactly the values of nodeLayers, so the
maximum key equals the maximum assigned layer value. -/
def maxLayerVal (assigned : List (ι × ℕ)) : ℤ :=
  assigned.foldl (fun m p => max m (p.2 : ℤ)) (-1)

/-- The trailing forEach of assignLayers: every node the forward pass never
assigned is given layer max-existing-layer-plus-1 at the moment it is
visited (nodesMap iterates in input order). -/
def leftoverPass (nodes : List ι) (assigned : List (ι × ℕ)) : List (ι × ℕ) :=
  nodes.foldl
    (fun acc n =>
      if (alGet acc n).isSome then acc
      else acc ++ [(n, (maxLayerVal acc + 1).toNat)])
    assigned

/-- The complete layer assignment of render/flowchart.js assignLayers:
forward Kahn pass, then the leftover pass for cycle members. -/
def assignLayers (nodes : List ι) (edges : List (ι × ι)) : List (ι × ℕ) :=
  leftoverPass nodes (forwardLayers nodes edges)

/-- The x coordinate of slot i in a layer of n nodes: the layer is centered
as a group around x = 0 (startX plus i node widths and gaps). -/
def layerSlotX (n : ℕ) (i : ℕ) : ℚ :=
  -((n : ℚ) * NODE_WIDTH + ((n : ℚ) - 1) * H_GAP) / 2 + NODE_WIDTH / 2 +
    (i : ℚ) * (NODE_WIDTH + H_GAP)

/-- The numerically sorted list of distinct layer indices, as positionNodes
sorts Array.from(layers.keys()). -/
def layerKeysSorted (assigned : List (ι × ℕ)) : List ℕ :=
  List.insertionSort (· ≤ ·) (assigned.map Prod.snd).dedup

/-- The node ids of one layer in push order (the source pushes into the
layers map entry at the moment the layer is assigned). -/
def nodesInLayer (assigned : List (ι × ℕ)) (k : ℕ) : List ι :=
  (assigned.filter (fun p => p.2 = k)).map Prod.fst

/-- The per-layer placement loop of positionNodes: each layer's nodes side
by side centered at x = 0, layers stacked by node height plus vertical gap. -/
def positionLoop (assigned : List (ι × ℕ)) : List ℕ → ℚ → List (ι × ℚ × ℚ)
  | [], _ => []
  | k :: ks, currentY =>
    ((nodesInLayer assigned k).enum.map
      (fun p => (p.2, layerSlotX (nodesInLayer assigned k).length p.1, currentY))) ++
      positionLoop assigned ks (currentY + NODE_HEIGHT + V_GAP)

/-- positionNodes of render/flowchart.js: id with x and y per node. -/
def positionNodes (assigned : List (ι × ℕ)) : List (ι × ℚ × ℚ) :=
  positionLoop assigned (layerKeysSorted assigned) 0

/-- Result of renderFlowchart: success with the viewBox computed from the
drawing maxima (running from 0) and Math.min over the positioned x and y
coordinates (padding 50). Edge drawing cannot influence the viewBox: the
missing-endpoint guard precedes use and edge paths do not feed the maxima,
so edges enter only through the layer assignment. -/
def renderFlowchart (nodes : List ι) (edges : List (ι × ι)) : RenderResult :=
  let positioned := positionNodes (assignLayers nodes edges)
  let maxX := positioned.foldl (fun m p => max m (p.2.1 + NODE_WIDTH)) 0
  let maxY := positioned.foldl (fun m p => max m (p.2.2 + NODE_HEIGHT)) 0
  let initialX := (jsMinList (positioned.map (fun p => p.2.1))).sub (JSNum.fin (50 / 2))
  let initialY := (jsMinList (positioned.map (fun p => p.2.2))).sub (JSNum.fin (50 / 2))
  { success := true,
    viewBox := (initialX, initialY,
      ((JSNum.fin (maxX + 50)).sub initialX).add (JSNum.fin (50 / 2)),
      ((JSNum.fin (maxY + 50)).sub initialY).add (JSNum.fin (50 / 2))) }

/-- One directed step along the edge list. -/
def EdgeStep (edges : List (ι × ι)) (a b : ι) : Prop := (a, b) ∈ edges

/-- Acyclicity of the edge relation: no node reaches itself through a
nonempty edge path. -/
def Acyclic (edges : List (ι × ι)) : Prop :=
  ∀ n, ¬ Relation.TransGen (EdgeStep edges) n n

/-- Whether both endpoints of an edge lie in the node set (the has-checks of
buildGraph). -/
def inGraphEdge (nodes : List ι) (e : ι × ι) : Bool :=
  decide (e.1 ∈ nodes) && decide (e.2 ∈ nodes)

/-- Number of edge instances into v whose source lies in us (edges counted
with multiplicity, endpoints restricted to the node set). -/
def firedCnt (nodes : List ι) (edges : List (ι × ι)) (us : List ι) (v : ι) : ℕ :=
  (edges.filter
    (fun e => inGraphEdge nodes e && decide (e.1 ∈ us) && decide (e.2 = v))).length

/-- The initial in-degree of v as built by buildGraph. -/
def inDegInit (nodes : List ι) (edges : List (ι × ι)) (v : ι) : ℕ :=
  (edges.filter (fun e => inGraphEdge nodes e && decide (e.2 = v))).length

/-- The invariant of the Kahn loop state, relative to the node and edge
lists: the nodeLayers map lists exactly the queue in push order; the queue
has no duplicates and lies in the node set; layers are nondecreasing in push
order; the in-degree map is keyed by the nodes and holds the initial
in-degree minus the fired edges from processed sources; a node is queued
exactly when all its incoming edges have fired; every fired edge respects
the strict layer order; and every assigned layer stays within one of every
pending node's layer. -/
structure KahnInv (nodes : List ι) (edges : List (ι × ι)) (processed pending : List ι)
    (indeg : List (ι × ℤ)) (assigned : List (ι × ℕ)) : Prop where
  keysEq : assigned.map Prod.fst = processed ++ pending
  qNodup : (processed ++ pending).Nodup
  qSub : ∀ x ∈ processed ++ pending, x ∈ nodes
  mono : List.Pairwise (· ≤ ·) (assigned.map Prod.snd)
  indegKeys : indeg.map Prod.fst = nodes
  indegVal : ∀ v ∈ nodes, alGet indeg v =
    some ((inDegInit nodes edges v : ℤ) - (firedCnt nodes edges processed v : ℤ))
  memIff : ∀ v ∈ nodes, (v ∈ processed ++ pending ↔
    firedCnt nodes edges processed v = inDegInit nodes edges v)
  topo : ∀ e ∈ edges, e.1 ∈ processed → ∀ lu lv,
    alGet assigned e.1 = some lu → alGet assigned e.2 = some lv → lu < lv
  bound : ∀ x ∈ pending, ∀ lx, alGet assigned x = some lx →
    ∀ l ∈ assigned.map Prod.snd, l ≤ lx + 1

/-- Sequence layout constants of render/sequence.js. -/
def PARTICIPANT_WIDTH : ℚ := 120

def LIFELINE_Y_START : ℚ := 80

def MESSAGE_HEIGHT : ℚ := 60

def HORIZONTAL_MARGIN : ℚ := 50

def LIFELINE_OFFSET : ℚ := 20

/-- A sequence message; the JS fields are from, to and text. -/
structure Msg where
  msgFrom : String
  msgTo : String
  text : String
deriving DecidableEq

/-- participantSpacing: the per-pair spacing, at least participant width
plus 80, growing with 500 over participant count minus one (JS coerces the
zero denominator to 1 with the or-idiom). Only evaluated for a nonempty
participant list. -/
def participantSpacing (n : ℕ) : ℚ :=
  max (PARTICIPANT_WIDTH + 80)
    ((if 1 < n then (500 : ℚ) else 0) / (if n = 1 then 1 else (n : ℚ) - 1))

/-- The participant x map: participant i at margin plus half a width plus i
stride; a JS Map keyed by the participant string (duplicates keep the first
position with the last written x). -/
def participantXMap (participants : List String) : List (String × ℚ) :=
  participants.enum.foldl
    (fun m ip =>
      alSet m ip.2 (HORIZONTAL_MARGIN + PARTICIPANT_WIDTH / 2 +
        (ip.1 : ℚ) * (PARTICIPANT_WIDTH + participantSpacing participants.length)))
    []

/-- The message forEach of renderSequence. The source reads
participantX.get(msg.from).x before its not-found guard, so a message naming
an unknown participant throws a TypeError that aborts the whole render; this
is the error branch. The guard itself tests the truthiness of the x values
(never 0 for real positions) and skips without advancing the y cursor. For
each drawn message the y cursor advances by the fixed row height first and
the running maximum y is updated after. -/
def seqMessagesLoop (pmap : List (String × ℚ)) :
    List Msg → ℚ → ℚ → Except String ℚ
  | [], _, maxMessageY => .ok maxMessageY
  | m :: ms, currentY, maxMessageY =>
    match alGet pmap m.msgFrom with
    | none => .error "TypeError: cannot read x of undefined"
    | some fromX =>
      match alGet pmap m.msgTo with
      | none => .error "TypeError: cannot read x of undefined"
      | some toX =>
        if fromX = 0 ∨ toX = 0 then seqMessagesLoop pmap ms currentY maxMessageY
        else
          seqMessagesLoop pmap ms (currentY + MESSAGE_HEIGHT)
            (max maxMessageY (currentY + MESSAGE_HEIGHT))

/-- renderSequence of render/sequence.js, up to the returned result shape:
the empty participant list returns the fixed 0 0 100 100 viewBox; otherwise
the participant x map is laid out, the messages are walked (possibly
throwing, see seqMessagesLoop) and the viewBox is 0 0 svgWidth svgHeight
with the height driven by the lowest message. -/
def renderSequence (participants : List String) (messages : List Msg) :
    Except String RenderResult :=
  if participants.length = 0 then
    .ok
      { success := true,
        viewBox := (JSNum.fin 0, JSNum.fin 0, JSNum.fin 100, JSNum.fin 100) }
  else
    match seqMessagesLoop (participantXMap participants) messages
      LIFELINE_Y_START LIFELINE_Y_START with
    | .error e => .error e
    | .ok maxMessageY =>
      .ok
        { success := true,
          viewBox := (JSNum.fin 0, JSNum.fin 0,
            JSNum.fin ((participants.length : ℚ) * PARTICIPANT_WIDTH +
              ((participants.length : ℚ) - 1) * participantSpacing participants.length +
              HORIZONTAL_MARGIN * 2),
            JSNum.fin (maxMessageY + LIFELINE_OFFSET + 30)) }

/-- C6: the cardinality-to-marker table. "one" renders as url(#one),
"many" as url(#oneToMany), "zero-or-one" as url(#zeroOrOne) and
"zero-or-many" as url(#zeroOrMany); the "end" position is the relationship's
to end and "start" its from end. The five rows are exactly:
0..1 gives zero-or-one at to and one at from; 1..1 gives one at both ends;
1..* gives many at to and one at from; 0..* gives zero-or-many at to and one
at from; *..* gives many at both ends. -/
theorem cardinality_marker_table :
    (getCardinalityMarker "0..1" "end" = "url(#zeroOrOne)" ∧
      getCardinalityMarker "0..1" "start" = "url(#one)") ∧
    (getCardinalityMarker "1..1" "end" = "url(#one)" ∧
      getCardinalityMarker "1..1" "start" = "url(#one)") ∧
    (getCardinalityMarker "1..*" "end" = "url(#oneToMany)" ∧
      getCardinalityMarker "1..*" "start" = "url(#one)") ∧
    (getCardinalityMarker "0..*" "end" = "url(#zeroOrMany)" ∧
      getCardinalityMarker "0..*" "start" = "url(#one)") ∧
    (getCardinalityMarker "*..*" "end" = "url(#oneToMany)" ∧
      getCardinalityMarker "*..*" "start" = "url(#oneToMany)") := by
  decide

/-- C10: any cardinality string outside the five recognised values falls
through both the start branch and the end switch to the url(#one) marker;
the function never fails. -/
theorem cardinality_marker_fallback (c : String)
    (h : c ∉ (["0..1", "1..1", "1..*", "0..*", "*..*"] : List String)) :
    getCardinalityMarker c "start" = "url(#one)" ∧
      getCardinalityMarker c "end" = "url(#one)" := by
  simp only [List.mem_cons, List.not_mem_nil, or_false, not_or] at h
  obtain ⟨h1, h2, h3, h4, h5⟩ := h
  refine ⟨?_, ?_⟩ <;> simp [getCardinalityMarker, h1, h2, h3, h4, h5]

/-- Witness for C10 at the concrete invalid cardinality "2..7". -/
theorem cardinality_marker_fallback_witness :
    ("2..7" ∉ (["0..1", "1..1", "1..*", "0..*", "*..*"] : List String)) ∧
    (getCardinalityMarker "2..7" "start" = "url(#one)" ∧
      getCardinalityMarker "2..7" "end" = "url(#one)") :=
  ⟨by decide, cardinality_marker_fallback "2..7" (by decide)⟩

/-- C9: connector endpoints are chosen by comparing the horizontal and
vertical center distances dx, dy. When the horizontal distance strictly
dominates, the endpoints are the vertical midpoints of the facing left/right
edges (the right edge of box 1 and left edge of box 2 when box 2 lies to the
right, mirrored otherwise); otherwise the horizontal midpoints of the facing
top/bottom edges (with the tie dy = 0 resolved to the top edge of box 1 and
bottom edge of box 2, as in the source). The connector is the single
straight segment between the two returned points. -/
theorem connection_points_characterization (r1 r2 : Rect) :
    (|r2.x + r2.width / 2 - (r1.x + r1.width / 2)| >
        |r2.y + r2.height / 2 - (r1.y + r1.height / 2)| →
      (r2.x + r2.width / 2 - (r1.x + r1.width / 2) > 0 →
        getClosestConnectionPoints r1 r2 =
          (⟨r1.x + r1.width, r1.y + r1.height / 2⟩, ⟨r2.x, r2.y + r2.height / 2⟩)) ∧
      (r2.x + r2.width / 2 - (r1.x + r1.width / 2) < 0 →
        getClosestConnectionPoints r1 r2 =
          (⟨r1.x, r1.y + r1.height / 2⟩, ⟨r2.x + r2.width, r2.y + r2.height / 2⟩))) ∧
    (¬ |r2.x + r2.width / 2 - (r1.x + r1.width / 2)| >
        |r2.y + r2.height / 2 - (r1.y + r1.height / 2)| →
      (r2.y + r2.height / 2 - (r1.y + r1.height / 2) > 0 →
        getClosestConnectionPoints r1 r2 =
          (⟨r1.x + r1.width / 2, r1.y + r1.height⟩, ⟨r2.x + r2.width / 2, r2.y⟩)) ∧
      (¬ r2.y + r2.height / 2 - (r1.y + r1.height / 2) > 0 →
        getClosestConnectionPoints r1 r2 =
          (⟨r1.x + r1.width / 2, r1.y⟩, ⟨r2.x + r2.width / 2, r2.y + r2.height⟩))) := by
  unfold getClosestConnectionPoints
  constructor
  · intro hdom
    rw [if_pos hdom]
    constructor
    · intro hdx; rw [if_pos hdx, if_pos hdx]
    · intro hdx
      rw [if_neg (by exact not_lt.mpr (le_of_lt hdx)), if_neg (by exact not_lt.mpr (le_of_lt hdx))]
  · intro hdom
    rw [if_neg hdom]
    constructor
    · intro hdy; rw [if_pos hdy, if_pos hdy]
    · intro hdy; rw [if_neg hdy, if_neg hdy]

/-- Witness for C9: two boxes side by side (horizontal distance dominates,
box 2 to the right) connect right-edge midpoint to left-edge midpoint. -/
theorem connection_points_witness :
    getClosestConnectionPoints ⟨0, 0, 10, 10⟩ ⟨100, 0, 10, 10⟩ =
      (⟨10, 5⟩, ⟨100, 5⟩) := by
  have h := ((connection_points_characterization ⟨0, 0, 10, 10⟩
    ⟨100, 0, 10, 10⟩).1 (by simp)).1 (by simp)
  norm_num at h
  simpa using h

lemma wrapLoop_ne_nil (measure : List Char → ℚ) (maxWidth : ℚ)
    (ws : List (List Char)) (cur : List Char) :
    wrapLoop measure maxWidth cur ws ≠ [] := by
  induction ws generalizing cur with
  | nil => simp [wrapLoop]
  | cons w ws ih =>
    unfold wrapLoop
    split
    · exact ih _
    · simp

lemma intercalate_cons_of_ne_nil {α : Type} (s a : List α) (l : List (List α))
    (hl : l ≠ []) :
    List.intercalate s (a :: l) = a ++ s ++ List.intercalate s l := by
  cases l with
  | nil => exact absurd rfl hl
  | cons b t => simp [List.intercalate, List.append_assoc]

lemma intercalate_cons_cons {α : Type} (s a b : List α) (t : List (List α)) :
    List.intercalate s (a :: b :: t) = a ++ s ++ List.intercalate s (b :: t) :=
  intercalate_cons_of_ne_nil s a (b :: t) (by simp)

lemma wrapLoop_measure_sound (measure : List Char → ℚ) (maxWidth : ℚ)
    (S : List (List Char)) :
    ∀ (ws : List (List Char)) (cur : List Char),
      (measure cur ≤ maxWidth ∨ cur ∈ S) → (∀ w ∈ ws, w ∈ S) →
      ∀ line ∈ wrapLoop measure maxWidth cur ws,
        measure line ≤ maxWidth ∨ line ∈ S := by
  intro ws
  induction ws with
  | nil =>
    intro cur hcur _ line hline
    simp only [wrapLoop, List.mem_singleton] at hline
    exact hline ▸ hcur
  | cons w ws ih =>
    intro cur hcur hws line hline
    unfold wrapLoop at hline
    split at hline
    · exact ih _ (Or.inl (by assumption)) (fun x hx => hws x (List.mem_cons_of_mem _ hx))
        line hline
    · rcases List.mem_cons.mp hline with h | h
      · exact h ▸ hcur
      · exact ih _ (Or.inr (hws w (List.mem_cons_self _ _)))
          (fun x hx => hws x (List.mem_cons_of_mem _ hx)) line h

lemma wrapLoop_join (measure : List Char → ℚ) (maxWidth : ℚ) :
    ∀ (ws : List (List Char)) (cur : List Char),
      List.intercalate [' '] (wrapLoop measure maxWidth cur ws) =
        List.intercalate [' '] (cur :: ws) := by
  intro ws
  induction ws with
  | nil => intro cur; rfl
  | cons w ws ih =>
    intro cur
    unfold wrapLoop
    split
    · rw [ih]
      cases ws with
      | nil => simp [List.intercalate, List.append_assoc]
      | cons b t =>
        rw [intercalate_cons_cons, intercalate_cons_cons, intercalate_cons_cons]
        simp [List.append_assoc]
    · rw [intercalate_cons_of_ne_nil _ _ _ (wrapLoop_ne_nil _ _ _ _), ih,
        intercalate_cons_cons]

/-- C3: every line produced by wrapText either measures within maxWidth or is
a single word of the original text (a word of the space-split) whose own
measure exceeds maxWidth, returned unshortened; and rejoining the lines with
single spaces reproduces the original text exactly. Holds for every
deterministic measurement function, every maxWidth and every text. -/
theorem wrapText_sound_and_join (measure : List Char → ℚ) (maxWidth : ℚ)
    (text : List Char) :
    (∀ line ∈ wrapText measure maxWidth text,
        measure line ≤ maxWidth ∨
          (maxWidth < measure line ∧ line ∈ text.splitOn ' ')) ∧
    List.intercalate [' '] (wrapText measure maxWidth text) = text := by
  unfold wrapText
  split
  · refine ⟨?_, by simp [List.intercalate]⟩
    intro line hline
    simp only [List.mem_singleton] at hline
    subst hline
    exact Or.inl (by assumption)
  · have hsplit : text.splitOn ' ' ≠ [] := by
      simp only [List.splitOn]
      exact List.splitOnP_ne_nil _ _
    rcases h : text.splitOn ' ' with _ | ⟨w, ws⟩
    · exact absurd h hsplit
    · constructor
      · intro line hline
        rcases wrapLoop_measure_sound measure maxWidth (w :: ws) ws w
          (Or.inr (List.mem_cons_self _ _)) (fun x hx => List.mem_cons_of_mem _ hx)
          line hline with hle | hmem
        · exact Or.inl hle
        · rcases le_or_lt (measure line) maxWidth with h1 | h1
          · exact Or.inl h1
          · exact Or.inr ⟨h1, hmem⟩
      · rw [wrapLoop_join, ← h, List.intercalate_splitOn]

lemma specRows_nil : specRows [] = [] := by
  rw [specRows]

lemma specRows_cons (e : PEntity) (es : List PEntity) :
    specRows (e :: es) =
      (e :: specRowTail es (e.calculatedWidth + ENTITY_H_GAP)) ::
        specRows (es.drop (specRowTail es (e.calculatedWidth + ENTITY_H_GAP)).length) := by
  rw [specRows]

lemma grid_aux_rows :
    ∀ (es : List PEntity) (curX curY rowH : ℚ) (placed : List PEntity),
      placed ≠ [] →
      layoutEntitiesGridAux es curX curY rowH placed =
        placed ++ placeRowFrom (specRowTail es curX) curX curY ++
          placeRowsFrom (specRows (es.drop (specRowTail es curX).length))
            (curY +
              (specRowTail es curX).foldl (fun m e => max m e.calculatedHeight) rowH +
              ENTITY_V_GAP) := by
  intro es
  induction es with
  | nil =>
    intro curX curY rowH placed hp
    simp [layoutEntitiesGridAux, specRowTail, specRows, placeRowFrom, placeRowsFrom]
  | cons e es ih =>
    intro curX curY rowH placed hp
    by_cases hfit : 800 + ENTITY_H_GAP < curX + e.calculatedWidth + ENTITY_H_GAP
    · rw [layoutEntitiesGridAux, if_pos ⟨List.length_pos.mpr hp, hfit⟩,
        ih _ _ _ _ (by simp)]
      conv_rhs => rw [specRowTail, if_pos hfit]
      simp only [List.length_nil, List.drop_zero, List.foldl_nil, placeRowFrom,
        List.append_nil]
      rw [specRows_cons]
      simp only [placeRowsFrom, placeRowFrom, rowMaxHeightOf, List.foldl_cons,
        zero_add, List.append_assoc, List.cons_append, List.singleton_append,
        List.nil_append, List.append_nil]
    · have hcond : ¬ (0 < placed.length ∧
          800 + ENTITY_H_GAP < curX + e.calculatedWidth + ENTITY_H_GAP) :=
        fun h => hfit h.2
      rw [layoutEntitiesGridAux, if_neg hcond, ih _ _ _ _ (by simp)]
      conv_rhs => rw [specRowTail, if_neg hfit]
      simp only [placeRowFrom, List.length_cons, List.drop_succ_cons,
        List.foldl_cons, List.append_assoc, List.cons_append, List.singleton_append,
        List.nil_append, List.append_nil]

/-- C7: ERD packing is the deterministic row fill described by the spec: the
source loop layoutEntitiesGrid computes exactly the sort-by-name, greedy
row-split, row-by-row placement layoutEntitiesGridRows (x accumulating per
row, wrap when the accumulated x plus the next width plus gap exceeds the
800-plus-gap budget, y advancing by the row's tallest box plus the fixed
gap); and a single entity is always placed at the coordinate origin. -/
theorem layoutEntitiesGrid_row_fill (entities : List PEntity) :
    layoutEntitiesGrid entities = layoutEntitiesGridRows entities ∧
    ∀ e : PEntity, layoutEntitiesGrid [e] = [{ e with x := 0, y := 0 }] := by
  constructor
  · unfold layoutEntitiesGrid layoutEntitiesGridRows
    rcases hs : List.insertionSort (fun a b : PEntity => a.name ≤ b.name) entities
      with _ | ⟨s, ss⟩
    · have hlen : entities.length = 0 := by
        have hperm := List.perm_insertionSort (fun a b : PEntity => a.name ≤ b.name) entities
        rw [hs] at hperm
        simpa using hperm.length_eq.symm
      rw [if_pos hlen]
      simp [specRows_nil, placeRowsFrom]
    · have hlen : ¬ entities.length = 0 := by
        have hperm := List.perm_insertionSort (fun a b : PEntity => a.name ≤ b.name) entities
        rw [hs] at hperm
        have := hperm.length_eq
        simp only [List.length_cons] at this
        omega
      rw [if_neg hlen]
      rw [layoutEntitiesGridAux, if_neg (by simp)]
      rw [grid_aux_rows _ _ _ _ _ (by simp)]
      rw [specRows_cons]
      simp only [placeRowsFrom, placeRowFrom, rowMaxHeightOf, List.foldl_cons,
        List.nil_append, zero_add, List.append_assoc, List.cons_append,
        List.singleton_append]
  · intro e
    rw [layoutEntitiesGrid, if_neg (by simp)]
    simp [List.insertionSort, List.orderedInsert, layoutEntitiesGridAux]

/-- Counterexample to C8 as stated: the renderERD measuring pass writes the
computed calculatedWidth and calculatedHeight onto the caller-owned entity
object itself, so the caller-visible entity list after the call differs from
the input already for a single attribute-less entity. -/
theorem erd_measure_pass_mutates_input :
    erdMeasurePass (fun _ _ _ => 0) [{ name := "A", attributes := [] }] ≠
      [{ name := "A", attributes := [] }] := by
  simp [erdMeasurePass]

/-- C8 amended: the only fields the engine ever writes onto caller-owned
inputs are calculatedWidth and calculatedHeight on ERD entities (always set
to some value by the measuring pass); names and attribute lists are
preserved, and positions exist only on the fresh per-invocation records
(Entity has no position fields at all, PEntity copies do). -/
theorem erd_measure_pass_frame (measure : String → ℚ → String → ℚ)
    (entities : List Entity) :
    (erdMeasurePass measure entities).map Entity.name = entities.map Entity.name ∧
    (erdMeasurePass measure entities).map Entity.attributes =
      entities.map Entity.attributes ∧
    ∀ e ∈ erdMeasurePass measure entities,
      e.calculatedWidth.isSome ∧ e.calculatedHeight.isSome := by
  refine ⟨?_, ?_, ?_⟩
  · simp [erdMeasurePass]
  · simp [erdMeasurePass]
  · intro e he
    simp only [erdMeasurePass, List.mem_map] at he
    obtain ⟨e0, -, rfl⟩ := he
    simp

lemma alGet_alSet_self {β : Type} {ι : Type} [DecidableEq ι]
    (m : List (ι × β)) (k : ι) (v : β) : alGet (alSet m k v) k = some v := by
  induction m with
  | nil => simp [alGet, alSet]
  | cons p ps ih =>
    by_cases h : p.1 = k
    · simp [alSet, alGet, h]
    · simp [alSet, alGet, h, ih]

lemma alGet_alSet_ne {β : Type} {ι : Type} [DecidableEq ι]
    (m : List (ι × β)) (k k' : ι) (v : β) (h : k' ≠ k) :
    alGet (alSet m k v) k' = alGet m k' := by
  induction m with
  | nil =>
    simp only [alSet, alGet]
    rw [if_neg (fun hh => h hh.symm)]
  | cons p ps ih =>
    by_cases hp : p.1 = k
    · have hkk : ¬ k = k' := fun hh => h hh.symm
      simp [alSet, alGet, hp, hkk]
    · simp only [alSet]
      rw [if_neg hp]
      by_cases hp' : p.1 = k'
      · simp [alGet, hp']
      · simp [alGet, hp', ih]

lemma alSet_keys {β : Type} {ι : Type} [DecidableEq ι]
    (m : List (ι × β)) (k : ι) (v : β) (h : (alGet m k).isSome) :
    (alSet m k v).map Prod.fst = m.map Prod.fst := by
  induction m with
  | nil => simp [alGet] at h
  | cons p ps ih =>
    by_cases hp : p.1 = k
    · simp [alSet, hp]
    · simp only [alGet, hp, if_neg] at h
      simp [alSet, hp, ih h]

lemma alGet_isSome_iff {β : Type} {ι : Type} [DecidableEq ι]
    (m : List (ι × β)) (k : ι) : (alGet m k).isSome ↔ k ∈ m.map Prod.fst := by
  induction m with
  | nil => simp [alGet]
  | cons p ps ih =>
    by_cases hp : p.1 = k
    · simp [alGet, hp]
    · have hkp : ¬ k = p.1 := fun hh => hp hh.symm
      simp [alGet, hp, ih, hkp]

lemma alGet_eq_none_iff {β : Type} {ι : Type} [DecidableEq ι]
    (m : List (ι × β)) (k : ι) : alGet m k = none ↔ k ∉ m.map Prod.fst := by
  rw [← alGet_isSome_iff, Option.not_isSome_iff_eq_none]

lemma alGet_append_left {β : Type} {ι : Type} [DecidableEq ι]
    (m m' : List (ι × β)) (k : ι) (h : (alGet m k).isSome) :
    alGet (m ++ m') k = alGet m k := by
  induction m with
  | nil => simp [alGet] at h
  | cons p ps ih =>
    by_cases hp : p.1 = k
    · simp [alGet, hp]
    · simp only [alGet, hp, if_neg] at h ⊢
      simp [ih h]

lemma alGet_append_right {β : Type} {ι : Type} [DecidableEq ι]
    (m m' : List (ι × β)) (k : ι) (h : alGet m k = none) :
    alGet (m ++ m') k = alGet m' k := by
  induction m with
  | nil => simp [alGet]
  | cons p ps ih =>
    by_cases hp : p.1 = k
    · simp [alGet, hp] at h
    · simp only [alGet, hp, if_neg] at h ⊢
      simp [alGet, hp, ih h]

lemma alGet_mem_pair {β : Type} {ι : Type} [DecidableEq ι]
    (m : List (ι × β)) (k : ι) (v : β) (h : alGet m k = some v) : (k, v) ∈ m := by
  induction m with
  | nil => simp [alGet] at h
  | cons p ps ih =>
    by_cases hp : p.1 = k
    · simp only [alGet, hp, if_pos, Option.some.injEq] at h
      have : p = (k, v) := Prod.ext hp h
      simp [this]
    · simp only [alGet, hp, if_neg] at h
      simp [ih h]

lemma alGet_mem_snd {β : Type} {ι : Type} [DecidableEq ι]
    (m : List (ι × β)) (k : ι) (v : β) (h : alGet m k = some v) :
    v ∈ m.map Prod.snd :=
  List.mem_map.mpr ⟨(k, v), alGet_mem_pair m k v h, rfl⟩

lemma alGet_map_const {β : Type} {ι : Type} [DecidableEq ι]
    (l : List ι) (c : β) (k : ι) :
    alGet (l.map (fun x => (x, c))) k = if k ∈ l then some c else none := by
  induction l with
  | nil => simp [alGet]
  | cons x xs ih =>
    by_cases hx : x = k
    · simp [alGet, hx]
    · have hkx : ¬ k = x := fun hh => hx hh.symm
      simp [alGet, hx, ih, hkx]

lemma alGet_le_of_before (al : List (ι × ℕ)) :
    ∀ P Q : List ι, (al.map Prod.fst).Nodup →
      List.Pairwise (· ≤ ·) (al.map Prod.snd) →
      al.map Prod.fst = P ++ Q →
      ∀ a ∈ P, ∀ b ∈ Q, ∀ la lb,
        alGet al a = some la → alGet al b = some lb → la ≤ lb := by
  induction al with
  | nil =>
    intro P Q _ _ hsplit a ha b hb la lb hla hlb
    simp [alGet] at hla
  | cons p tl ih =>
    intro P Q hnd hpw hsplit a ha b hb la lb hla hlb
    cases P with
    | nil => simp at ha
    | cons p0 P' =>
      simp only [List.map_cons, List.cons_append, List.cons.injEq] at hsplit
      obtain ⟨hp0, htl⟩ := hsplit
      have hheadmem : p.1 ∉ tl.map Prod.fst := (List.nodup_cons.mp hnd).1
      have hbmem : b ∈ tl.map Prod.fst := by
        rw [htl]; exact List.mem_append_right _ hb
      have hbne : ¬ p.1 = b := fun he => hheadmem (he ▸ hbmem)
      have hlb' : alGet tl b = some lb := by
        simpa [alGet, hbne] using hlb
      rcases List.mem_cons.mp ha with rfl | haP'
      · have hpa : p.1 = a := hp0
        have hla' : la = p.2 := by
          simp [alGet, hpa] at hla
          exact hla.symm
        have hmem : lb ∈ tl.map Prod.snd := alGet_mem_snd tl b lb hlb'
        have := (List.pairwise_cons.mp hpw).1 lb hmem
        exact hla' ▸ this
      · have hamem : a ∈ tl.map Prod.fst := by
          rw [htl]; exact List.mem_append_left _ haP'
        have hane : ¬ p.1 = a := fun he => hheadmem (he ▸ hamem)
        have hla' : alGet tl a = some la := by
          simpa [alGet, hane] using hla
        exact ih P' Q (List.nodup_cons.mp hnd).2 (List.pairwise_cons.mp hpw).2 htl
          a haP' b hb la lb hla' hlb'

lemma buildInDeg_fold_get (nodes : List ι) :
    ∀ (edges : List (ι × ι)) (m : List (ι × ℤ)),
      (∀ x, (alGet m x).isSome ↔ x ∈ nodes) →
      ∀ v, alGet (edges.foldl
          (fun m e =>
            if (alGet m e.1).isSome ∧ (alGet m e.2).isSome then
              alSet m e.2 ((alGet m e.2).getD 0 + 1)
            else m) m) v =
        (alGet m v).map (fun d =>
          d + ((edges.filter (fun e => inGraphEdge nodes e && decide (e.2 = v))).length : ℤ)) := by
  intro edges
  induction edges with
  | nil =>
    intro m hm v
    cases h : alGet m v <;> simp [h]
  | cons e es ih =>
    intro m hm v
    by_cases hg : e.1 ∈ nodes ∧ e.2 ∈ nodes
    · have hcheck : (alGet m e.1).isSome ∧ (alGet m e.2).isSome :=
        ⟨(hm e.1).mpr hg.1, (hm e.2).mpr hg.2⟩
      obtain ⟨d2, hd2⟩ := Option.isSome_iff_exists.mp hcheck.2
      have hm' : ∀ x, (alGet (alSet m e.2 ((alGet m e.2).getD 0 + 1)) x).isSome ↔ x ∈ nodes := by
        intro x
        by_cases hx : x = e.2
        · subst hx
          simp [alGet_alSet_self, hg.2]
        · rw [alGet_alSet_ne m e.2 x _ hx]
          exact hm x
      have hgE : inGraphEdge nodes e = true := by
        simp [inGraphEdge, hg.1, hg.2]
      rw [List.foldl_cons, if_pos hcheck, ih _ hm' v]
      by_cases hv : e.2 = v
      · subst hv
        rw [alGet_alSet_self, hd2]
        simp [List.filter_cons, hgE]
        ring
      · rw [alGet_alSet_ne m e.2 v _ (fun hh => hv hh.symm)]
        simp [List.filter_cons, hv, hgE]
    · have hcheck : ¬ ((alGet m e.1).isSome ∧ (alGet m e.2).isSome) := by
        rw [hm e.1, hm e.2]; exact hg
      have hgE : inGraphEdge nodes e = false := by
        simp only [inGraphEdge, Bool.and_eq_false_iff]
        rcases not_and_or.mp hg with h | h
        · exact Or.inl (by simpa using h)
        · exact Or.inr (by simpa using h)
      rw [List.foldl_cons, if_neg hcheck, ih _ hm v]
      simp [List.filter_cons, hgE]

lemma buildInDeg_get (nodes : List ι) (edges : List (ι × ι)) (v : ι) :
    alGet (buildInDeg nodes edges) v =
      if v ∈ nodes then some ((inDegInit nodes edges v : ℤ)) else none := by
  unfold buildInDeg
  rw [buildInDeg_fold_get nodes edges _ (by
    intro x
    rw [alGet_map_const]
    by_cases hx : x ∈ nodes <;> simp [hx])]
  rw [alGet_map_const]
  by_cases hv : v ∈ nodes <;> simp [hv, inDegInit]

lemma buildInDeg_keys (nodes : List ι) (edges : List (ι × ι)) :
    (buildInDeg nodes edges).map Prod.fst = nodes := by
  unfold buildInDeg
  have main : ∀ (es : List (ι × ι)) (m : List (ι × ℤ)),
      (es.foldl
        (fun m e =>
          if (alGet m e.1).isSome ∧ (alGet m e.2).isSome then
            alSet m e.2 ((alGet m e.2).getD 0 + 1)
          else m) m).map Prod.fst = m.map Prod.fst := by
    intro es
    induction es with
    | nil => intro m; rfl
    | cons e es ih =>
      intro m
      rw [List.foldl_cons]
      by_cases hc : (alGet m e.1).isSome ∧ (alGet m e.2).isSome
      · rw [if_pos hc, ih, alSet_keys _ _ _ hc.2]
      · rw [if_neg hc, ih]
  rw [main]
  simp [Function.comp_def]

lemma buildAdj_fold_get (nodes : List ι) :
    ∀ (edges : List (ι × ι)) (m : List (ι × List ι)),
      (∀ x, (alGet m x).isSome ↔ x ∈ nodes) →
      ∀ u, alGet (edges.foldl
          (fun adj e =>
            if (alGet adj e.1).isSome ∧ (alGet adj e.2).isSome then
              alSet adj e.1 ((alGet adj e.1).getD [] ++ [e.2])
            else adj) m) u =
        (alGet m u).map (fun l =>
          l ++ (edges.filter (fun e => inGraphEdge nodes e && decide (e.1 = u))).map Prod.snd) := by
  intro edges
  induction edges with
  | nil =>
    intro m hm u
    cases h : alGet m u <;> simp [h]
  | cons e es ih =>
    intro m hm u
    by_cases hg : e.1 ∈ nodes ∧ e.2 ∈ nodes
    · have hcheck : (alGet m e.1).isSome ∧ (alGet m e.2).isSome :=
        ⟨(hm e.1).mpr hg.1, (hm e.2).mpr hg.2⟩
      obtain ⟨l1, hl1⟩ := Option.isSome_iff_exists.mp hcheck.1
      have hm' : ∀ x, (alGet (alSet m e.1 ((alGet m e.1).getD [] ++ [e.2])) x).isSome ↔ x ∈ nodes := by
        intro x
        by_cases hx : x = e.1
        · subst hx
          simp [alGet_alSet_self, hg.1]
        · rw [alGet_alSet_ne m e.1 x _ hx]
          exact hm x
      have hgE : inGraphEdge nodes e = true := by
        simp [inGraphEdge, hg.1, hg.2]
      rw [List.foldl_cons, if_pos hcheck, ih _ hm' u]
      by_cases hu : e.1 = u
      · subst hu
        rw [alGet_alSet_self, hl1]
        simp [List.filter_cons, hgE]
      · rw [alGet_alSet_ne m e.1 u _ (fun hh => hu hh.symm)]
        simp [List.filter_cons, hu, hgE]
    · have hcheck : ¬ ((alGet m e.1).isSome ∧ (alGet m e.2).isSome) := by
        rw [hm e.1, hm e.2]; exact hg
      have hgE : inGraphEdge nodes e = false := by
        simp only [inGraphEdge, Bool.and_eq_false_iff]
        rcases not_and_or.mp hg with h | h
        · exact Or.inl (by simpa using h)
        · exact Or.inr (by simpa using h)
      rw [List.foldl_cons, if_neg hcheck, ih _ hm u]
      simp [List.filter_cons, hgE]

lemma adjOf_eq (nodes : List ι) (edges : List (ι × ι)) (u : ι) :
    adjOf nodes edges u =
      if u ∈ nodes then
        (edges.filter (fun e => inGraphEdge nodes e && decide (e.1 = u))).map Prod.snd
      else [] := by
  unfold adjOf buildAdj
  rw [buildAdj_fold_get nodes edges _ (by
    intro x
    rw [alGet_map_const]
    by_cases hx : x ∈ nodes <;> simp [hx])]
  rw [alGet_map_const]
  by_cases hu : u ∈ nodes <;> simp [hu]

lemma adjOf_sub_nodes (nodes : List ι) (edges : List (ι × ι)) (u v : ι)
    (hv : v ∈ adjOf nodes edges u) : v ∈ nodes := by
  rw [adjOf_eq] at hv
  by_cases hu : u ∈ nodes
  · rw [if_pos hu] at hv
    obtain ⟨e, he, rfl⟩ := List.mem_map.mp hv
    have := (List.mem_filter.mp he).2
    simp only [inGraphEdge, Bool.and_eq_true, decide_eq_true_eq] at this
    exact this.1.2
  · rw [if_neg hu] at hv
    simp at hv

lemma count_adjOf (nodes : List ι) (edges : List (ι × ι)) (u : ι)
    (hu : u ∈ nodes) (v : ι) :
    (adjOf nodes edges u).count v = firedCnt nodes edges [u] v := by
  rw [adjOf_eq, if_pos hu]
  unfold firedCnt
  induction edges with
  | nil => simp
  | cons e es ih =>
    by_cases hg : inGraphEdge nodes e = true
    · by_cases h1 : e.1 = u
      · by_cases h2 : e.2 = v
        · simp [List.filter_cons, hg, h1, h2, List.count_cons, ih]
        · simp [List.filter_cons, hg, h1, h2, List.count_cons, ih]
      · simp [List.filter_cons, hg, h1, ih]
    · simp only [Bool.not_eq_true] at hg
      simp [List.filter_cons, hg, ih]

lemma firedCnt_nil (nodes : List ι) (edges : List (ι × ι)) (v : ι) :
    firedCnt nodes edges [] v = 0 := by
  unfold firedCnt
  simp

lemma filter_length_split {α : Type} (l : List α) (p q r : α → Bool)
    (h : ∀ a ∈ l, r a = true ↔ (p a = true ∨ q a = true))
    (hdisj : ∀ a ∈ l, ¬ (p a = true ∧ q a = true)) :
    (l.filter r).length = (l.filter p).length + (l.filter q).length := by
  induction l with
  | nil => simp
  | cons a l ih =>
    have ha := h a (List.mem_cons_self _ _)
    have hda := hdisj a (List.mem_cons_self _ _)
    have ih' := ih (fun x hx => h x (List.mem_cons_of_mem _ hx))
      (fun x hx => hdisj x (List.mem_cons_of_mem _ hx))
    by_cases hp : p a = true
    · have hq : ¬ q a = true := fun hq => hda ⟨hp, hq⟩
      have hr : r a = true := ha.mpr (Or.inl hp)
      simp only [List.filter_cons, hp, hq, hr, if_pos, if_neg, List.length_cons]
      simp only [Bool.not_eq_true] at hq
      simp [hq, ih']
      omega
    · by_cases hq : q a = true
      · have hr : r a = true := ha.mpr (Or.inr hq)
        simp only [Bool.not_eq_true] at hp
        simp [List.filter_cons, hp, hq, hr, ih']
        omega
      · have hr : ¬ r a = true := fun hr => by rcases ha.mp hr with h' | h' <;> simp_all
        simp only [Bool.not_eq_true] at hp hq hr
        simp [List.filter_cons, hp, hq, hr, ih']

lemma filter_length_mono {α : Type} (l : List α) (p q : α → Bool)
    (h : ∀ a ∈ l, p a = true → q a = true) :
    (l.filter p).length ≤ (l.filter q).length := by
  induction l with
  | nil => simp
  | cons a l ih =>
    have ih' := ih (fun x hx => h x (List.mem_cons_of_mem _ hx))
    by_cases hp : p a = true
    · have hq := h a (List.mem_cons_self _ _) hp
      simp [List.filter_cons, hp, hq]
      omega
    · simp only [Bool.not_eq_true] at hp
      by_cases hq : q a = true
      · simp [List.filter_cons, hp, hq]
        omega
      · simp only [Bool.not_eq_true] at hq
        simp [List.filter_cons, hp, hq, ih']

lemma firedCnt_append_singleton (nodes : List ι) (edges : List (ι × ι))
    (us : List ι) (u : ι) (hu : u ∉ us) (v : ι) :
    firedCnt nodes edges (us ++ [u]) v =
      firedCnt nodes edges us v + firedCnt nodes edges [u] v := by
  unfold firedCnt
  apply filter_length_split
  · intro e _
    constructor
    · intro hr
      simp only [Bool.and_eq_true, decide_eq_true_eq, List.mem_append,
        List.mem_singleton] at hr ⊢
      rcases hr.1.2 with h | h
      · exact Or.inl ⟨⟨hr.1.1, h⟩, hr.2⟩
      · exact Or.inr ⟨⟨hr.1.1, by simp [h]⟩, hr.2⟩
    · intro hpq
      simp only [Bool.and_eq_true, decide_eq_true_eq, List.mem_append,
        List.mem_singleton] at hpq ⊢
      rcases hpq with ⟨⟨hg, h1⟩, h2⟩ | ⟨⟨hg, h1⟩, h2⟩
      · exact ⟨⟨hg, Or.inl h1⟩, h2⟩
      · exact ⟨⟨hg, Or.inr (by simpa using h1)⟩, h2⟩
  · intro e _
    rintro ⟨hp, hq⟩
    simp only [Bool.and_eq_true, decide_eq_true_eq, List.mem_singleton] at hp hq
    exact hu (hq.1.2 ▸ hp.1.2)

lemma firedCnt_le_inDegInit (nodes : List ι) (edges : List (ι × ι))
    (us : List ι) (v : ι) :
    firedCnt nodes edges us v ≤ inDegInit nodes edges v := by
  unfold firedCnt inDegInit
  induction edges with
  | nil => simp
  | cons e es ih =>
    by_cases hg : inGraphEdge nodes e = true
    · by_cases h2 : e.2 = v
      · by_cases hus : e.1 ∈ us
        · simp [List.filter_cons, hg, h2, hus]
          omega
        · simp [List.filter_cons, hg, h2, hus]
          omega
      · simp [List.filter_cons, hg, h2, ih]
    · simp only [Bool.not_eq_true] at hg
      simp [List.filter_cons, hg, ih]

lemma firedCnt_pos_of_edge (nodes : List ι) (edges : List (ι × ι))
    (us : List ι) (e : ι × ι) (he : e ∈ edges) (h1 : e.1 ∈ nodes)
    (h2 : e.2 ∈ nodes) (hus : e.1 ∈ us) :
    1 ≤ firedCnt nodes edges us e.2 := by
  unfold firedCnt
  have : e ∈ edges.filter
      (fun x => inGraphEdge nodes x && decide (x.1 ∈ us) && decide (x.2 = e.2)) := by
    rw [List.mem_filter]
    refine ⟨he, ?_⟩
    simp [inGraphEdge, h1, h2, hus]
  calc 1 ≤ _ := List.length_pos.mpr (List.ne_nil_of_mem this)

lemma exists_unfired_edge (nodes : List ι) (edges : List (ι × ι))
    (us : List ι) (v : ι)
    (h : firedCnt nodes edges us v < inDegInit nodes edges v) :
    ∃ e ∈ edges, inGraphEdge nodes e = true ∧ e.2 = v ∧ e.1 ∉ us := by
  by_contra hC
  push_neg at hC
  have hmono : inDegInit nodes edges v ≤ firedCnt nodes edges us v := by
    unfold firedCnt inDegInit
    apply filter_length_mono
    intro e he hp
    simp only [Bool.and_eq_true, decide_eq_true_eq] at hp ⊢
    exact ⟨⟨hp.1, hC e he hp.1 hp.2⟩, hp.2⟩
  omega
lemma stepNeighbors_spec (nodes : List ι) (L : ℕ) :
    ∀ (vs : List ι) (indeg : List (ι × ℤ)) (assigned : List (ι × ℕ))
      (pushed : List ι) (f : ι → ℤ),
      indeg.map Prod.fst = nodes →
      (∀ v ∈ nodes, alGet indeg v = some (f v)) →
      (∀ v ∈ vs, v ∈ nodes) →
      (stepNeighbors L vs indeg assigned pushed).1.map Prod.fst = nodes ∧
      (∀ v ∈ nodes, alGet (stepNeighbors L vs indeg assigned pushed).1 v =
        some (f v - (vs.count v : ℤ))) ∧
      ∃ newly : List ι,
        (stepNeighbors L vs indeg assigned pushed).2.1 =
          assigned ++ newly.map (fun v => (v, L + 1)) ∧
        (stepNeighbors L vs indeg assigned pushed).2.2 = pushed ++ newly ∧
        newly.Nodup ∧
        (∀ v, v ∈ newly ↔ v ∈ vs ∧ 1 ≤ f v ∧ f v ≤ (vs.count v : ℤ)) := by
  intro vs
  induction vs with
  | nil =>
    intro indeg assigned pushed f hkeys hvals _
    refine ⟨hkeys, ?_, [], by simp [stepNeighbors], by simp [stepNeighbors],
      List.nodup_nil, by intro v; simp⟩
    intro v hv
    simpa [stepNeighbors] using hvals v hv
  | cons v vs ih =>
    intro indeg assigned pushed f hkeys hvals hsub
    have hvnodes : v ∈ nodes := hsub v (List.mem_cons_self _ _)
    have hget : alGet indeg v = some (f v) := hvals v hvnodes
    have hsome : (alGet indeg v).isSome := by rw [hget]; rfl
    have hkeys' : (alSet indeg v (f v - 1)).map Prod.fst = nodes := by
      rw [alSet_keys _ _ _ hsome]; exact hkeys
    have hvals' : ∀ w ∈ nodes, alGet (alSet indeg v (f v - 1)) w =
        some (if w = v then f v - 1 else f w) := by
      intro w hw
      by_cases hwv : w = v
      · subst hwv
        simp [alGet_alSet_self]
      · rw [alGet_alSet_ne _ _ _ _ hwv]
        simp [hwv, hvals w hw]
    have hsub' : ∀ w ∈ vs, w ∈ nodes := fun w hw => hsub w (List.mem_cons_of_mem _ hw)
    have hcast : ∀ w : ι, ((v :: vs).count w : ℤ) =
        (vs.count w : ℤ) + if w = v then 1 else 0 := by
      intro w
      rw [List.count_cons]
      push_cast
      by_cases h : w = v
      · simp [h]
      · have h' : ¬ v = w := fun hh => h hh.symm
        simp [h, h']
    by_cases hpush : f v - 1 = 0
    · have hstep : stepNeighbors L (v :: vs) indeg assigned pushed =
          stepNeighbors L vs (alSet indeg v (f v - 1)) (assigned ++ [(v, L + 1)])
            (pushed ++ [v]) := by
        simp [stepNeighbors, hget, hpush]
      obtain ⟨hk, hval, newly', h1, h2, hnd, hchar⟩ :=
        ih (alSet indeg v (f v - 1)) (assigned ++ [(v, L + 1)]) (pushed ++ [v])
          (fun w => if w = v then f v - 1 else f w) hkeys' hvals' hsub'
      rw [hstep]
      refine ⟨hk, ?_, v :: newly', ?_, ?_, ?_, ?_⟩
      · intro w hw
        rw [hval w hw, hcast w]
        congr 1
        by_cases hwv : w = v
        · subst hwv
          rw [if_pos rfl, if_pos rfl]
          omega
        · rw [if_neg hwv, if_neg hwv]
          omega
      · rw [h1]
        simp [List.append_assoc]
      · rw [h2]
        simp [List.append_assoc]
      · refine List.nodup_cons.mpr ⟨?_, hnd⟩
        intro hmem
        have := ((hchar v).mp hmem).2.1
        rw [if_pos rfl] at this
        omega
      · intro w
        constructor
        · intro hmem
          rcases List.mem_cons.mp hmem with rfl | hmem'
          · refine ⟨List.mem_cons_self _ _, by omega, ?_⟩
            rw [hcast w, if_pos rfl]
            have : (0 : ℤ) ≤ (vs.count w : ℤ) := Int.ofNat_nonneg _
            omega
          · obtain ⟨hwvs, hge, hle⟩ := (hchar w).mp hmem'
            have hwv : ¬ w = v := by
              intro hh
              subst hh
              rw [if_pos rfl] at hge
              omega
            rw [if_neg hwv] at hge hle
            refine ⟨List.mem_cons_of_mem _ hwvs, hge, ?_⟩
            rw [hcast w, if_neg hwv]
            omega
        · rintro ⟨hwmem, hge, hle⟩
          by_cases hwv : w = v
          · subst hwv
            exact List.mem_cons_self _ _
          · apply List.mem_cons_of_mem
            apply (hchar w).mpr
            rw [if_neg hwv]
            rw [hcast w, if_neg hwv] at hle
            rcases List.mem_cons.mp hwmem with h | h
            · exact absurd h hwv
            · exact ⟨h, hge, by omega⟩
    · have hstep : stepNeighbors L (v :: vs) indeg assigned pushed =
          stepNeighbors L vs (alSet indeg v (f v - 1)) assigned pushed := by
        simp [stepNeighbors, hget, hpush]
      obtain ⟨hk, hval, newly', h1, h2, hnd, hchar⟩ :=
        ih (alSet indeg v (f v - 1)) assigned pushed
          (fun w => if w = v then f v - 1 else f w) hkeys' hvals' hsub'
      rw [hstep]
      refine ⟨hk, ?_, newly', h1, h2, hnd, ?_⟩
      · intro w hw
        rw [hval w hw, hcast w]
        congr 1
        by_cases hwv : w = v
        · subst hwv
          rw [if_pos rfl, if_pos rfl]
          omega
        · rw [if_neg hwv, if_neg hwv]
          omega
      · intro w
        constructor
        · intro hmem
          obtain ⟨hwvs, hge, hle⟩ := (hchar w).mp hmem
          by_cases hwv : w = v
          · subst hwv
            rw [if_pos rfl] at hge hle
            refine ⟨List.mem_cons_of_mem _ hwvs, by omega, ?_⟩
            rw [hcast w, if_pos rfl]
            omega
          · rw [if_neg hwv] at hge hle
            refine ⟨List.mem_cons_of_mem _ hwvs, hge, ?_⟩
            rw [hcast w, if_neg hwv]
            omega
        · rintro ⟨hwmem, hge, hle⟩
          apply (hchar w).mpr
          by_cases hwv : w = v
          · subst hwv
            rw [hcast w, if_pos rfl] at hle
            rw [if_pos rfl]
            have hvvs : w ∈ vs := by
              by_contra hno
              have hz : vs.count w = 0 := List.count_eq_zero.mpr hno
              rw [hz] at hle
              simp at hle
              omega
            exact ⟨hvvs, by omega, by omega⟩
          · rw [hcast w, if_neg hwv] at hle
            rw [if_neg hwv]
            rcases List.mem_cons.mp hwmem with h | h
            · exact absurd h hwv
            · exact ⟨h, hge, by omega⟩

lemma sum_indicator_eq_length_filter (l : List ι) (p : ι → Prop) [DecidablePred p] :
    (l.map (fun v => if p v then 1 else 0)).sum =
      (l.filter (fun v => decide (p v))).length := by
  induction l with
  | nil => simp
  | cons a l ih =>
    by_cases ha : p a
    · simp [List.filter_cons, ha, ih]
      omega
    · simp [List.filter_cons, ha, ih]

lemma sum_map_add_nat (l : List ι) (a b : ι → ℕ) :
    (l.map (fun v => a v + b v)).sum = (l.map a).sum + (l.map b).sum := by
  induction l with
  | nil => simp
  | cons x l ih =>
    simp only [List.map_cons, List.sum_cons, ih]
    omega

lemma length_eq_indicator_sum (l sub : List ι) (hnds : sub.Nodup) (hndl : l.Nodup)
    (hsub : ∀ x ∈ sub, x ∈ l) :
    sub.length = (l.map (fun v => if v ∈ sub then 1 else 0)).sum := by
  rw [sum_indicator_eq_length_filter]
  have hperm : List.Perm (l.filter (fun v => decide (v ∈ sub))) sub := by
    rw [List.perm_ext_iff_of_nodup (hndl.filter _) hnds]
    intro a
    simp only [List.mem_filter, decide_eq_true_eq]
    exact ⟨fun h => h.2, fun h => ⟨hsub a h, h⟩⟩
  exact hperm.length_eq.symm

lemma indegSum_eq :
    ∀ (indeg : List (ι × ℤ)) (nodes : List ι) (f : ι → ℤ),
      indeg.map Prod.fst = nodes → nodes.Nodup →
      (∀ v ∈ nodes, alGet indeg v = some (f v)) →
      indegSum indeg = (nodes.map (fun v => (f v).toNat)).sum := by
  intro indeg
  induction indeg with
  | nil =>
    intro nodes f hkeys _ _
    rw [← hkeys]
    simp [indegSum]
  | cons p tl ih =>
    intro nodes f hkeys hnd hvals
    subst hkeys
    have hval_head := hvals p.1 (by simp)
    have hhead : alGet (p :: tl) p.1 = some p.2 := by simp [alGet]
    rw [hhead] at hval_head
    have hfp : f p.1 = p.2 := by
      injection hval_head.symm with h
    have hnd' := List.nodup_cons.mp hnd
    have hvals' : ∀ v ∈ tl.map Prod.fst, alGet tl v = some (f v) := by
      intro v hv
      have hne : ¬ p.1 = v := fun hh => hnd'.1 (hh ▸ hv)
      have := hvals v (by simp [hv])
      simpa [alGet, hne] using this
    have := ih (tl.map Prod.fst) f rfl hnd'.2 hvals'
    simp only [indegSum, List.map_cons, List.sum_cons] at this ⊢
    rw [this, hfp]

lemma pairwise_le_of_const (l : List ι) (c : ℕ) :
    List.Pairwise (fun a b : ℕ => a ≤ b) (l.map (fun _ => c)) := by
  induction l with
  | nil => simp
  | cons x l ih =>
    simp only [List.map_cons, List.pairwise_cons]
    exact ⟨fun b hb => by
      obtain ⟨y, -, rfl⟩ := List.mem_map.mp hb
      exact le_refl c, ih⟩

lemma step_measure_le (nodes : List ι) (hnd : nodes.Nodup) (L : ℕ) (vs : List ι)
    (indeg : List (ι × ℤ)) (assigned : List (ι × ℕ)) (f : ι → ℤ)
    (hkeys : indeg.map Prod.fst = nodes)
    (hvals : ∀ v ∈ nodes, alGet indeg v = some (f v))
    (hsub : ∀ v ∈ vs, v ∈ nodes) :
    indegSum (stepNeighbors L vs indeg assigned []).1 +
      (stepNeighbors L vs indeg assigned []).2.2.length ≤ indegSum indeg := by
  obtain ⟨hk, hval, newly, ha, hp, hndnew, hchar⟩ :=
    stepNeighbors_spec nodes L vs indeg assigned [] f hkeys hvals hsub
  have hlen : (stepNeighbors L vs indeg assigned []).2.2.length = newly.length := by
    rw [hp]; simp
  have hnewsub : ∀ x ∈ newly, x ∈ nodes :=
    fun x hx => hsub x ((hchar x).mp hx).1
  rw [hlen,
    indegSum_eq indeg nodes f hkeys hnd hvals,
    indegSum_eq (stepNeighbors L vs indeg assigned []).1 nodes
      (fun v => f v - (vs.count v : ℤ)) hk hnd hval,
    length_eq_indicator_sum nodes newly hndnew hnd hnewsub]
  rw [add_comm, ← sum_map_add_nat]
  apply List.sum_le_sum
  intro v hv
  by_cases hvn : v ∈ newly
  · obtain ⟨-, hge, hle⟩ := (hchar v).mp hvn
    simp only [hvn, if_pos]
    omega
  · simp only [hvn, if_neg, if_false]
    have : (0 : ℤ) ≤ (vs.count v : ℤ) := Int.ofNat_nonneg _
    omega

lemma kahnLoop_inv (nodes : List ι) (edges : List (ι × ι)) (hnd : nodes.Nodup)
    (hE : ∀ e ∈ edges, e.1 ∈ nodes ∧ e.2 ∈ nodes) :
    ∀ (fuel : ℕ) (processed pending : List ι) (indeg : List (ι × ℤ))
      (assigned : List (ι × ℕ)),
      pending.length + indegSum indeg ≤ fuel →
      KahnInv nodes edges processed pending indeg assigned →
      KahnInv nodes edges
        (kahnLoop (adjOf nodes edges) fuel processed pending indeg assigned).1 []
        (kahnLoop (adjOf nodes edges) fuel processed pending indeg assigned).2.1
        (kahnLoop (adjOf nodes edges) fuel processed pending indeg assigned).2.2 := by
  intro fuel
  induction fuel with
  | zero =>
    intro processed pending indeg assigned hfuel hinv
    cases pending with
    | nil => simpa [kahnLoop] using hinv
    | cons u rest => simp at hfuel
  | succ fuel ih =>
    intro processed pending indeg assigned hfuel hinv
    cases pending with
    | nil => simpa [kahnLoop] using hinv
    | cons u rest =>
      obtain ⟨hkeysEq, hqnd, hqsub, hmono, hidk, hidv, hmem, htopo, hbound⟩ := hinv
      have humem : u ∈ processed ++ u :: rest := by simp
      have hukey : u ∈ assigned.map Prod.fst := by rw [hkeysEq]; simp
      obtain ⟨L, hL⟩ := Option.isSome_iff_exists.mp ((alGet_isSome_iff _ _).mpr hukey)
      have hgetD : (alGet assigned u).getD 0 = L := by rw [hL]; rfl
      have hunodes : u ∈ nodes := hqsub u humem
      have hvssub : ∀ w ∈ adjOf nodes edges u, w ∈ nodes :=
        fun w hw => adjOf_sub_nodes nodes edges u w hw
      have hand : (assigned.map Prod.fst).Nodup := by rw [hkeysEq]; exact hqnd
      have hunotproc : u ∉ processed := by
        have := List.disjoint_of_nodup_append hqnd
        intro hu
        exact this hu (List.mem_cons_self _ _)
      obtain ⟨hk1, hval1, newly, ha1, hp1, hndnew, hchar⟩ :=
        stepNeighbors_spec nodes L (adjOf nodes edges u) indeg assigned []
          (fun v => (inDegInit nodes edges v : ℤ) - (firedCnt nodes edges processed v : ℤ))
          hidk hidv hvssub
      have hfadd : ∀ v, firedCnt nodes edges (processed ++ [u]) v =
          firedCnt nodes edges processed v + firedCnt nodes edges [u] v :=
        fun v => firedCnt_append_singleton nodes edges processed u hunotproc v
      have hcnt : ∀ v, ((adjOf nodes edges u).count v : ℤ) =
          (firedCnt nodes edges [u] v : ℤ) := by
        intro v
        rw [count_adjOf nodes edges u hunodes v]
      have hcharF : ∀ x, x ∈ newly ↔ x ∈ adjOf nodes edges u ∧
          firedCnt nodes edges processed x < inDegInit nodes edges x ∧
          inDegInit nodes edges x ≤
            firedCnt nodes edges processed x + firedCnt nodes edges [u] x := by
        intro x
        rw [hchar x]
        constructor
        · rintro ⟨h1, h2, h3⟩
          rw [hcnt x] at h3
          exact ⟨h1, by omega, by omega⟩
        · rintro ⟨h1, h2, h3⟩
          rw [hcnt x]
          exact ⟨h1, by omega, by omega⟩
      have hfresh : ∀ x ∈ newly, x ∉ processed ++ u :: rest := by
        intro x hx hxq
        have hxn : x ∈ nodes := hvssub x ((hchar x).mp hx).1
        have := (hmem x hxn).mp hxq
        have hlt := ((hcharF x).mp hx).2.1
        omega
      have hfresh_none : ∀ x ∈ newly, alGet assigned x = none := by
        intro x hx
        rw [alGet_eq_none_iff, hkeysEq]
        exact hfresh x hx
      have halnew : ∀ x ∈ newly,
          alGet (assigned ++ newly.map (fun v => (v, L + 1))) x = some (L + 1) := by
        intro x hx
        rw [alGet_append_right _ _ _ (hfresh_none x hx), alGet_map_const, if_pos hx]
      have halold : ∀ x, (alGet assigned x).isSome →
          alGet (assigned ++ newly.map (fun v => (v, L + 1))) x = alGet assigned x :=
        fun x hx => alGet_append_left _ _ _ hx
      have halcases : ∀ x lx,
          alGet (assigned ++ newly.map (fun v => (v, L + 1))) x = some lx →
          alGet assigned x = some lx ∨ (x ∈ newly ∧ lx = L + 1) := by
        intro x lx hx
        by_cases hs : (alGet assigned x).isSome
        · left
          rw [← halold x hs]
          exact hx
        · right
          rw [Option.not_isSome_iff_eq_none] at hs
          rw [alGet_append_right _ _ _ hs, alGet_map_const] at hx
          by_cases hxn : x ∈ newly
          · rw [if_pos hxn] at hx
            injection hx with hx
            exact ⟨hxn, hx.symm⟩
          · rw [if_neg hxn] at hx
            exact absurd hx (by simp)
      have hle_proc_u : ∀ a ∈ processed, ∀ la, alGet assigned a = some la → la ≤ L := by
        intro a ha la hla
        exact alGet_le_of_before assigned processed (u :: rest) hand hmono hkeysEq
          a ha u (List.mem_cons_self _ _) la L hla hL
      have hsplit2 : assigned.map Prod.fst = (processed ++ [u]) ++ rest := by
        rw [hkeysEq]
        simp
      have hle_u_rest : ∀ x ∈ rest, ∀ lx, alGet assigned x = some lx → L ≤ lx := by
        intro x hx lx hlx
        exact alGet_le_of_before assigned (processed ++ [u]) rest hand hmono hsplit2
          u (by simp) x hx L lx hL hlx
      have hballa : ∀ l ∈ assigned.map Prod.snd, l ≤ L + 1 :=
        hbound u (List.mem_cons_self _ _) L hL
      have hunf : kahnLoop (adjOf nodes edges) (fuel + 1) processed (u :: rest)
            indeg assigned =
          kahnLoop (adjOf nodes edges) fuel (processed ++ [u])
            (rest ++ (stepNeighbors L (adjOf nodes edges u) indeg assigned []).2.2)
            (stepNeighbors L (adjOf nodes edges u) indeg assigned []).1
            (stepNeighbors L (adjOf nodes edges u) indeg assigned []).2.1 := by
        simp only [kahnLoop, hgetD]
      rw [hunf]
      have hmeas : (rest ++
            (stepNeighbors L (adjOf nodes edges u) indeg assigned []).2.2).length +
          indegSum (stepNeighbors L (adjOf nodes edges u) indeg assigned []).1 ≤ fuel := by
        have hstep := step_measure_le nodes hnd L (adjOf nodes edges u) indeg assigned
          (fun v => (inDegInit nodes edges v : ℤ) - (firedCnt nodes edges processed v : ℤ))
          hidk hidv hvssub
        simp only [List.length_append, List.length_cons] at hfuel ⊢
        omega
      apply ih _ _ _ _ hmeas
      rw [hp1, ha1]
      simp only [List.nil_append]
      constructor
      case keysEq =>
        rw [List.map_append, hkeysEq]
        simp [List.append_assoc, Function.comp_def]
      case qNodup =>
        have hq2 : ((processed ++ [u]) ++ rest).Nodup := by
          rw [← List.append_cons]
          exact hqnd
        rw [← List.append_assoc, List.nodup_append]
        refine ⟨hq2, hndnew, ?_⟩
        intro x hx hxn
        refine hfresh x hxn ?_
        rw [List.append_cons]
        exact hx
      case qSub =>
        intro x hx
        rcases List.mem_append.mp hx with h | h
        · rcases List.mem_append.mp h with h2 | h2
          · exact hqsub x (List.mem_append_left _ h2)
          · simp at h2
            subst h2
            exact hunodes
        · rcases List.mem_append.mp h with h2 | h2
          · exact hqsub x (by simp [h2])
          · exact hvssub x ((hchar x).mp h2).1
      case mono =>
        rw [List.map_append, List.pairwise_append]
        have hsnd : (newly.map (fun v => (v, L + 1))).map Prod.snd =
            newly.map (fun _ => L + 1) := by
          rw [List.map_map]
          simp [Function.comp_def]
        refine ⟨hmono, ?_, ?_⟩
        · rw [hsnd]
          exact pairwise_le_of_const newly (L + 1)
        · intro a ha b hb
          rw [hsnd] at hb
          obtain ⟨y, -, rfl⟩ := List.mem_map.mp hb
          exact hballa a ha
      case indegKeys => exact hk1
      case indegVal =>
        intro v hv
        rw [hval1 v hv]
        congr 1
        rw [hcnt v, hfadd v]
        push_cast
        ring
      case memIff =>
        intro v hv
        rw [hfadd v]
        have hfle2 : firedCnt nodes edges (processed ++ [u]) v ≤
            inDegInit nodes edges v := firedCnt_le_inDegInit nodes edges _ v
        rw [hfadd v] at hfle2
        constructor
        · intro hvq
          have hcases : v ∈ processed ++ u :: rest ∨ v ∈ newly := by
            rcases List.mem_append.mp hvq with h | h
            · rcases List.mem_append.mp h with h2 | h2
              · exact Or.inl (List.mem_append_left _ h2)
              · simp at h2
                exact Or.inl (by simp [h2])
            · rcases List.mem_append.mp h with h2 | h2
              · exact Or.inl (by simp [h2])
              · exact Or.inr h2
          rcases hcases with h | h
          · have heq := (hmem v hv).mp h
            omega
          · have := ((hcharF v).mp h).2.2
            omega
        · intro heq
          by_contra hvq
          have hnotq : v ∉ processed ++ u :: rest := by
            intro h
            apply hvq
            rcases List.mem_append.mp h with h2 | h2
            · exact List.mem_append_left _ (List.mem_append_left _ h2)
            · rcases List.mem_cons.mp h2 with h3 | h3
              · exact List.mem_append_left _ (by simp [h3])
              · exact List.mem_append_right _ (List.mem_append_left _ h3)
          have hnotnew : v ∉ newly := by
            intro h
            exact hvq (List.mem_append_right _ (List.mem_append_right _ h))
          have hfle1 : firedCnt nodes edges processed v ≤ inDegInit nodes edges v :=
            firedCnt_le_inDegInit nodes edges processed v
          have hne2 : firedCnt nodes edges processed v ≠ inDegInit nodes edges v :=
            fun h => hnotq ((hmem v hv).mpr h)
          by_cases hadj : v ∈ adjOf nodes edges u
          · exact hnotnew ((hcharF v).mpr ⟨hadj, by omega, by omega⟩)
          · have hcz : (adjOf nodes edges u).count v = 0 := List.count_eq_zero.mpr hadj
            have hfz : firedCnt nodes edges [u] v = 0 := by
              have hq := hcnt v
              rw [hcz] at hq
              exact_mod_cast hq.symm
            omega
      case topo =>
        intro e he he1 lu lv hlu hlv
        have he1n : e.1 ∈ nodes := (hE e he).1
        have he2n : e.2 ∈ nodes := (hE e he).2
        rcases halcases e.2 lv hlv with hv_old | ⟨hv_new, rfl⟩
        · rcases List.mem_append.mp he1 with h1 | h1
          · have hs : (alGet assigned e.1).isSome := by
              rw [alGet_isSome_iff, hkeysEq]
              exact List.mem_append_left _ h1
            have hlu_old : alGet assigned e.1 = some lu := by
              rw [← halold e.1 hs]
              exact hlu
            exact htopo e he h1 lu lv hlu_old hv_old
          · simp only [List.mem_singleton] at h1
            subst h1
            have hv_keys : e.2 ∈ assigned.map Prod.fst :=
              (alGet_isSome_iff _ _).mp (by rw [hv_old]; rfl)
            have hv_mem : e.2 ∈ processed ++ e.1 :: rest := by
              rw [← hkeysEq]
              exact hv_keys
            have heqf := (hmem e.2 he2n).mp hv_mem
            have hpos : 1 ≤ firedCnt nodes edges [e.1] e.2 :=
              firedCnt_pos_of_edge nodes edges [e.1] e he he1n he2n (by simp)
            have hfle2 : firedCnt nodes edges (processed ++ [e.1]) e.2 ≤
                inDegInit nodes edges e.2 := firedCnt_le_inDegInit nodes edges _ _
            rw [hfadd e.2] at hfle2
            omega
        · rcases List.mem_append.mp he1 with h1 | h1
          · have hs : (alGet assigned e.1).isSome := by
              rw [alGet_isSome_iff, hkeysEq]
              exact List.mem_append_left _ h1
            have hlu_old : alGet assigned e.1 = some lu := by
              rw [← halold e.1 hs]
              exact hlu
            have := hle_proc_u e.1 h1 lu hlu_old
            omega
          · simp only [List.mem_singleton] at h1
            subst h1
            have hs : (alGet assigned e.1).isSome := by rw [hL]; rfl
            have hlu_old : alGet assigned e.1 = some lu := by
              rw [← halold e.1 hs]
              exact hlu
            rw [hL] at hlu_old
            injection hlu_old with hlu_old
            omega
      case bound =>
        intro x hx lx hlx l hl
        rw [List.map_append] at hl
        have hlval : l ≤ L + 1 := by
          rcases List.mem_append.mp hl with h | h
          · exact hballa l h
          · have hleq : l = L + 1 := by
              simp only [List.map_map] at h
              obtain ⟨y, -, hy⟩ := List.mem_map.mp h
              simpa using hy.symm
            omega
        have hlxL : L ≤ lx := by
          rcases List.mem_append.mp hx with hxr | hxn
          · have hs : (alGet assigned x).isSome := by
              rw [alGet_isSome_iff, hkeysEq]
              simp [hxr]
            have hlx_old : alGet assigned x = some lx := by
              rw [← halold x hs]
              exact hlx
            exact hle_u_rest x hxr lx hlx_old
          · have hx_new := halnew x hxn
            rw [hx_new] at hlx
            injection hlx with hlx
            omega
        omega

lemma kahnSeed_sub_keys (indeg0 : List (ι × ℤ)) (v : ι) (hv : v ∈ kahnSeed indeg0) :
    v ∈ indeg0.map Prod.fst := by
  unfold kahnSeed at hv
  obtain ⟨p, hp, rfl⟩ := List.mem_map.mp hv
  exact List.mem_map.mpr ⟨p, (List.mem_filter.mp hp).1, rfl⟩

lemma kahnSeed_nodup (indeg0 : List (ι × ℤ)) (hnd : (indeg0.map Prod.fst).Nodup) :
    (kahnSeed indeg0).Nodup := by
  unfold kahnSeed
  exact ((List.filter_sublist indeg0).map Prod.fst).nodup hnd

lemma mem_kahnSeed_iff (indeg0 : List (ι × ℤ)) (hnd : (indeg0.map Prod.fst).Nodup)
    (v : ι) : v ∈ kahnSeed indeg0 ↔ alGet indeg0 v = some 0 := by
  induction indeg0 with
  | nil => simp [kahnSeed, alGet]
  | cons p tl ih =>
    rw [List.map_cons] at hnd
    have hnd' := List.nodup_cons.mp hnd
    have ih' := ih hnd'.2
    unfold kahnSeed
    simp only [List.filter_cons]
    by_cases hp0 : p.2 = 0
    · rw [if_pos (by simpa using hp0)]
      simp only [List.map_cons, List.mem_cons]
      by_cases hv : p.1 = v
      · subst hv
        constructor
        · intro _
          simp [alGet, hp0]
        · intro _
          exact Or.inl rfl
      · have hv' : ¬ v = p.1 := fun hh => hv hh.symm
        rw [show alGet (p :: tl) v = alGet tl v from by simp [alGet, hv]]
        unfold kahnSeed at ih'
        rw [← ih']
        simp [hv']
    · rw [if_neg (by simpa using hp0)]
      by_cases hv : p.1 = v
      · subst hv
        have hnotin : p.1 ∉ kahnSeed tl :=
          fun hmem => hnd'.1 (kahnSeed_sub_keys tl p.1 hmem)
        rw [show alGet (p :: tl) p.1 = some p.2 from by simp [alGet]]
        constructor
        · intro hmem
          exact absurd hmem hnotin
        · intro hget
          injection hget with hget
          exact absurd hget hp0
      · have hv' : ¬ v = p.1 := fun hh => hv hh.symm
        rw [show alGet (p :: tl) v = alGet tl v from by simp [alGet, hv]]
        exact ih'

lemma snd_zero_map (seed : List ι) (l : ℕ)
    (hl : l ∈ (seed.map (fun n => (n, 0))).map Prod.snd) : l = 0 := by
  simp only [List.map_map] at hl
  obtain ⟨y, -, hy⟩ := List.mem_map.mp hl
  simpa using hy.symm

lemma kahnInit_inv (nodes : List ι) (edges : List (ι × ι)) (hnd : nodes.Nodup) :
    KahnInv nodes edges [] (kahnSeed (buildInDeg nodes edges))
      (buildInDeg nodes edges)
      ((kahnSeed (buildInDeg nodes edges)).map (fun n => (n, 0))) := by
  have hkeys := buildInDeg_keys nodes edges
  have hknd : ((buildInDeg nodes edges).map Prod.fst).Nodup := by
    rw [hkeys]; exact hnd
  constructor
  case keysEq => simp [List.map_map, Function.comp_def]
  case qNodup => simpa using kahnSeed_nodup _ hknd
  case qSub =>
    intro x hx
    simp only [List.nil_append] at hx
    have := kahnSeed_sub_keys _ x hx
    rwa [hkeys] at this
  case mono =>
    have : ((kahnSeed (buildInDeg nodes edges)).map
        (fun n => (n, 0))).map Prod.snd =
        (kahnSeed (buildInDeg nodes edges)).map (fun _ => 0) := by
      rw [List.map_map]
      simp [Function.comp_def]
    rw [this]
    exact pairwise_le_of_const _ 0
  case indegKeys => exact hkeys
  case indegVal =>
    intro v hv
    rw [buildInDeg_get, if_pos hv, firedCnt_nil]
    simp
  case memIff =>
    intro v hv
    simp only [List.nil_append]
    rw [mem_kahnSeed_iff _ hknd, buildInDeg_get, if_pos hv, firedCnt_nil]
    constructor
    · intro h
      injection h with h
      omega
    · intro h
      congr 1
      omega
  case topo =>
    intro e he h1
    simp at h1
  case bound =>
    intro x hx lx hlx l hl
    have : l = 0 := snd_zero_map _ l hl
    omega

lemma leftoverPass_noop :
    ∀ (ns : List ι) (acc : List (ι × ℕ)),
      (∀ n ∈ ns, (alGet acc n).isSome) → leftoverPass ns acc = acc := by
  intro ns
  induction ns with
  | nil => intro acc _; rfl
  | cons n ns ih =>
    intro acc h
    have hn := h n (List.mem_cons_self _ _)
    have step : leftoverPass (n :: ns) acc = leftoverPass ns acc := by
      simp only [leftoverPass, List.foldl_cons, if_pos hn]
    rw [step]
    exact ih acc (fun m hm => h m (List.mem_cons_of_mem _ hm))

lemma all_processed_of_acyclic (nodes : List ι) (edges : List (ι × ι))
    (hA : Acyclic edges) (processedF : List ι) (indegF : List (ι × ℤ))
    (assignedF : List (ι × ℕ))
    (hinv : KahnInv nodes edges processedF [] indegF assignedF) :
    ∀ v ∈ nodes, v ∈ processedF := by
  by_contra hC
  push_neg at hC
  obtain ⟨v0, hv0n, hv0p⟩ := hC
  classical
  have hbadstep : ∀ b, b ∈ nodes → b ∉ processedF →
      ∃ a, (a ∈ nodes ∧ a ∉ processedF) ∧ EdgeStep edges a b := by
    intro b hbn hbp
    have hne : firedCnt nodes edges processedF b ≠ inDegInit nodes edges b := by
      intro h
      exact hbp (by simpa using (hinv.memIff b hbn).mpr h)
    have hle := firedCnt_le_inDegInit nodes edges processedF b
    obtain ⟨e, he, hg, h2, h1⟩ := exists_unfired_edge nodes edges processedF b
      (by omega)
    have hgm : e.1 ∈ nodes ∧ e.2 ∈ nodes := by
      simpa [inGraphEdge] using hg
    refine ⟨e.1, ⟨hgm.1, h1⟩, ?_⟩
    show (e.1, b) ∈ edges
    rw [← h2]
    simpa using he
  have hv0bad : v0 ∈ nodes.toFinset.filter (fun x => x ∉ processedF) := by
    simp only [Finset.mem_filter, List.mem_toFinset]
    exact ⟨hv0n, hv0p⟩
  have hstep : ∀ x : {y // y ∈ nodes.toFinset.filter (fun x => x ∉ processedF)},
      ∃ a, (a ∈ nodes.toFinset.filter (fun x => x ∉ processedF)) ∧
        EdgeStep edges a x.1 := by
    intro x
    have hx := x.2
    simp only [Finset.mem_filter, List.mem_toFinset] at hx
    obtain ⟨a, ⟨han, hap⟩, hae⟩ := hbadstep x.1 hx.1 hx.2
    refine ⟨a, ?_, hae⟩
    simp only [Finset.mem_filter, List.mem_toFinset]
    exact ⟨han, hap⟩
  let g : {y // y ∈ nodes.toFinset.filter (fun x => x ∉ processedF)} →
      {y // y ∈ nodes.toFinset.filter (fun x => x ∉ processedF)} := fun x =>
    ⟨(hstep x).choose, (hstep x).choose_spec.1⟩
  have hg : ∀ x, EdgeStep edges (g x).1 x.1 :=
    fun x => (hstep x).choose_spec.2
  let f : ℕ → {y // y ∈ nodes.toFinset.filter (fun x => x ∉ processedF)} :=
    fun n => g^[n] ⟨v0, hv0bad⟩
  have hchain : ∀ n, EdgeStep edges (f (n + 1)).1 (f n).1 := by
    intro n
    have hit : f (n + 1) = g (f n) := Function.iterate_succ_apply' g n _
    rw [hit]
    exact hg (f n)
  have htg : ∀ k n, Relation.TransGen (EdgeStep edges) (f (n + k + 1)).1 (f n).1 := by
    intro k
    induction k with
    | zero => intro n; exact Relation.TransGen.single (hchain n)
    | succ k ihk =>
      intro n
      exact Relation.TransGen.head (hchain (n + k + 1)) (ihk n)
  obtain ⟨i, j, hij, hfeq⟩ := Finite.exists_ne_map_eq_of_infinite f
  rcases lt_trichotomy i j with hlt | heq | hgt
  · have htt : Relation.TransGen (EdgeStep edges) (f j).1 (f i).1 := by
      have h := htg (j - i - 1) i
      have harith : i + (j - i - 1) + 1 = j := by omega
      rwa [harith] at h
    rw [← hfeq] at htt
    exact hA _ htt
  · exact hij heq
  · have htt : Relation.TransGen (EdgeStep edges) (f i).1 (f j).1 := by
      have h := htg (i - j - 1) j
      have harith : j + (i - j - 1) + 1 = i := by omega
      rwa [harith] at h
    rw [hfeq] at htt
    exact hA _ htt

lemma kahnForward_inv (nodes : List ι) (edges : List (ι × ι)) (hnd : nodes.Nodup)
    (hE : ∀ e ∈ edges, e.1 ∈ nodes ∧ e.2 ∈ nodes) :
    KahnInv nodes edges (kahnForward nodes edges).1 []
      (kahnForward nodes edges).2.1 (kahnForward nodes edges).2.2 := by
  exact kahnLoop_inv nodes edges hnd hE _ [] (kahnSeed (buildInDeg nodes edges))
    (buildInDeg nodes edges)
    ((kahnSeed (buildInDeg nodes edges)).map (fun n => (n, 0)))
    (by simp) (kahnInit_inv nodes edges hnd)

lemma acyclic_of_rank (edges : List (ι × ι)) (rank : ι → ℕ)
    (h : ∀ e ∈ edges, rank e.1 < rank e.2) : Acyclic edges := by
  intro n hn
  have hmono : ∀ a b, Relation.TransGen (EdgeStep edges) a b → rank a < rank b := by
    intro a b hab
    induction hab with
    | single hs => exact h _ hs
    | tail _ hs ihs => exact ihs.trans (h _ hs)
  exact lt_irrefl _ (hmono n n hn)

/-- C1: for every flowchart input whose edges reference existing nodes, with
distinct node ids and an acyclic edge relation, the layer assignment produced
by assignLayers is a valid topological order: every edge goes from a node
with a strictly smaller layer index to a node with a strictly larger one. -/
theorem assignLayers_topological {ι : Type} [DecidableEq ι]
    (nodes : List ι) (edges : List (ι × ι)) (hnd : nodes.Nodup)
    (hE : ∀ e ∈ edges, e.1 ∈ nodes ∧ e.2 ∈ nodes) (hA : Acyclic edges) :
    ∀ e ∈ edges, ∃ lu lv,
      alGet (assignLayers nodes edges) e.1 = some lu ∧
      alGet (assignLayers nodes edges) e.2 = some lv ∧ lu < lv := by
  have hinv := kahnForward_inv nodes edges hnd hE
  have hall := all_processed_of_acyclic nodes edges hA _ _ _ hinv
  have hkeysF : (kahnForward nodes edges).2.2.map Prod.fst =
      (kahnForward nodes edges).1 := by
    have := hinv.keysEq
    simpa using this
  have hnoop : assignLayers nodes edges = forwardLayers nodes edges := by
    unfold assignLayers
    apply leftoverPass_noop
    intro n hn
    rw [alGet_isSome_iff]
    show n ∈ (kahnForward nodes edges).2.2.map Prod.fst
    rw [hkeysF]
    exact hall n hn
  intro e he
  have h1p : e.1 ∈ (kahnForward nodes edges).1 := hall e.1 (hE e he).1
  have h2p : e.2 ∈ (kahnForward nodes edges).1 := hall e.2 (hE e he).2
  have h1s : (alGet (forwardLayers nodes edges) e.1).isSome := by
    rw [alGet_isSome_iff]
    show e.1 ∈ (kahnForward nodes edges).2.2.map Prod.fst
    rw [hkeysF]
    exact h1p
  have h2s : (alGet (forwardLayers nodes edges) e.2).isSome := by
    rw [alGet_isSome_iff]
    show e.2 ∈ (kahnForward nodes edges).2.2.map Prod.fst
    rw [hkeysF]
    exact h2p
  obtain ⟨lu, hlu⟩ := Option.isSome_iff_exists.mp h1s
  obtain ⟨lv, hlv⟩ := Option.isSome_iff_exists.mp h2s
  refine ⟨lu, lv, ?_, ?_, ?_⟩
  · rw [hnoop]
    exact hlu
  · rw [hnoop]
    exact hlv
  · exact hinv.topo e he h1p lu lv hlu hlv

/-- Witness for C1: the three-node chain 0 to 1 to 2 (the spec's A, B, C
example) with its acyclicity discharged through the identity rank. -/
theorem assignLayers_topological_witness :
    ∃ lu lv, alGet (assignLayers [0, 1, 2] [(0, 1), (1, 2)]) (0 : ℕ) = some lu ∧
      alGet (assignLayers [0, 1, 2] [(0, 1), (1, 2)]) 1 = some lv ∧ lu < lv :=
  assignLayers_topological [0, 1, 2] [(0, 1), (1, 2)] (by decide) (by decide)
    (acyclic_of_rank _ id (by decide)) ((0 : ℕ), (1 : ℕ)) (by decide)

/-- Counterexample to C2 as stated: in the two-cycle 0 to 1 to 0 the forward
pass reaches no node at all, yet the two leftover nodes do not share one
trailing layer: the leftover loop recomputes the maximum existing layer at
each visit, so node 0 lands in layer 0 and node 1 in layer 1. -/
theorem leftover_single_layer_counterexample :
    forwardLayers [0, 1] [(0, 1), (1, 0)] = ([] : List (ℕ × ℕ)) ∧
    alGet (assignLayers [0, 1] [(0, 1), (1, 0)]) (0 : ℕ) = some 0 ∧
    alGet (assignLayers [0, 1] [(0, 1), (1, 0)]) 1 = some 1 := by
  decide

lemma foldl_max_ge_init (l : List (ι × ℕ)) :
    ∀ init : ℤ, init ≤ l.foldl (fun m p => max m (p.2 : ℤ)) init := by
  induction l with
  | nil => intro init; simp
  | cons q l ih =>
    intro init
    calc init ≤ max init (q.2 : ℤ) := le_max_left _ _
    _ ≤ _ := ih _

lemma foldl_max_ge_mem (l : List (ι × ℕ)) :
    ∀ (init : ℤ) (p : ι × ℕ), p ∈ l →
      (p.2 : ℤ) ≤ l.foldl (fun m p => max m (p.2 : ℤ)) init := by
  induction l with
  | nil => intro _ p hp; simp at hp
  | cons q l ih =>
    intro init p hp
    rcases List.mem_cons.mp hp with rfl | hp'
    · calc (p.2 : ℤ) ≤ max init (p.2 : ℤ) := le_max_right _ _
      _ ≤ _ := foldl_max_ge_init l _
    · exact ih _ p hp'

lemma maxLayerVal_ge_neg_one (assigned : List (ι × ℕ)) :
    -1 ≤ maxLayerVal assigned :=
  foldl_max_ge_init assigned (-1)

lemma maxLayerVal_ge_mem (assigned : List (ι × ℕ)) (p : ι × ℕ) (hp : p ∈ assigned) :
    (p.2 : ℤ) ≤ maxLayerVal assigned :=
  foldl_max_ge_mem assigned (-1) p hp

lemma leftoverPass_extends :
    ∀ (ns : List ι) (acc : List (ι × ℕ)),
      ∃ extra : List (ι × ℕ),
        leftoverPass ns acc = acc ++ extra ∧
        List.Pairwise (fun p q : ι × ℕ => (p.2 : ℤ) < (q.2 : ℤ)) extra ∧
        (∀ p ∈ extra, ∀ q ∈ acc, (q.2 : ℤ) < (p.2 : ℤ)) ∧
        (∀ v ∈ ns, alGet acc v = none →
          ∃ l, alGet (leftoverPass ns acc) v = some l) := by
  intro ns
  induction ns with
  | nil =>
    intro acc
    exact ⟨[], by simp [leftoverPass], by simp, by simp, by simp⟩
  | cons n ns ih =>
    intro acc
    by_cases hn : (alGet acc n).isSome
    · have hstep : leftoverPass (n :: ns) acc = leftoverPass ns acc := by
        simp only [leftoverPass, List.foldl_cons, if_pos hn]
      obtain ⟨extra, h1, h2, h3, h4⟩ := ih acc
      refine ⟨extra, by rw [hstep]; exact h1, h2, h3, ?_⟩
      intro v hv hvnone
      rcases List.mem_cons.mp hv with rfl | hv'
      · rw [hvnone] at hn
        simp at hn
      · rw [hstep]
        exact h4 v hv' hvnone
    · rw [Option.not_isSome_iff_eq_none] at hn
      have hstep : leftoverPass (n :: ns) acc =
          leftoverPass ns (acc ++ [(n, (maxLayerVal acc + 1).toNat)]) := by
        simp only [leftoverPass, List.foldl_cons, hn]
        rw [if_neg (by simp [hn])]
      have htn : (((maxLayerVal acc + 1).toNat : ℤ)) = maxLayerVal acc + 1 := by
        have := maxLayerVal_ge_neg_one acc
        omega
      obtain ⟨extra, h1, h2, h3, h4⟩ := ih (acc ++ [(n, (maxLayerVal acc + 1).toNat)])
      refine ⟨(n, (maxLayerVal acc + 1).toNat) :: extra, ?_, ?_, ?_, ?_⟩
      · rw [hstep, h1]
        simp [List.append_assoc]
      · rw [List.pairwise_cons]
        refine ⟨?_, h2⟩
        intro q hq
        exact h3 q hq _ (by simp)
      · intro p hp q hq
        rcases List.mem_cons.mp hp with rfl | hp'
        · have hle := maxLayerVal_ge_mem acc q hq
          simp only [htn]
          omega
        · exact h3 p hp' q (List.mem_append_left _ hq)
      · intro v hv hvnone
        by_cases hvn : v = n
        · subst hvn
          rw [hstep, h1]
          have hmid : alGet (acc ++ [(v, (maxLayerVal acc + 1).toNat)]) v =
              some ((maxLayerVal acc + 1).toNat) := by
            rw [alGet_append_right _ _ _ hvnone]
            simp [alGet]
          refine ⟨(maxLayerVal acc + 1).toNat, ?_⟩
          rw [alGet_append_left]
          · exact hmid
          · rw [hmid]
            rfl
        · rcases List.mem_cons.mp hv with h | h
          · exact absurd h hvn
          · rw [hstep]
            apply h4 v h
            rw [alGet_append_right _ _ _ hvnone]
            have hnv : ¬ (n : ι) = v := fun hh => hvn hh.symm
            simp [alGet, hnv]

/-- C2 (amended): every node missed by the Kahn forward pass does receive a
trailing layer strictly greater than every forward layer, but the leftover
nodes are NOT gathered into one shared trailing layer: the loop recomputes
the maximum existing layer for each leftover node, so distinct leftover nodes
get pairwise distinct layer indices, each in its own trailing layer. -/
theorem leftover_nodes_trailing {ι : Type} [DecidableEq ι]
    (nodes : List ι) (edges : List (ι × ι)) (v : ι) (hv : v ∈ nodes)
    (hnf : alGet (forwardLayers nodes edges) v = none) :
    ∃ lv, alGet (assignLayers nodes edges) v = some lv ∧
      (∀ u lu, alGet (forwardLayers nodes edges) u = some lu → lu < lv) ∧
      (∀ w, w ∈ nodes → w ≠ v → alGet (forwardLayers nodes edges) w = none →
        ∀ lw, alGet (assignLayers nodes edges) w = some lw → lw ≠ lv) := by
  obtain ⟨extra, hres, hpw, hgt, hmemp⟩ :=
    leftoverPass_extends nodes (forwardLayers nodes edges)
  obtain ⟨lv, hlv⟩ := hmemp v hv hnf
  have hlv' : alGet (assignLayers nodes edges) v = some lv := hlv
  have hvex : (v, lv) ∈ extra := by
    rw [hres, alGet_append_right _ _ _ hnf] at hlv
    exact alGet_mem_pair _ _ _ hlv
  refine ⟨lv, hlv', ?_, ?_⟩
  · intro u lu hlu
    have hq := hgt (v, lv) hvex (u, lu) (alGet_mem_pair _ _ _ hlu)
    exact_mod_cast hq
  · intro w hw hne hwnf lw hlw
    have hlw2 : alGet (leftoverPass nodes (forwardLayers nodes edges)) w =
        some lw := hlw
    rw [hres, alGet_append_right _ _ _ hwnf] at hlw2
    have hwex : (w, lw) ∈ extra := alGet_mem_pair _ _ _ hlw2
    have hpw2 : List.Pairwise (fun p q : ι × ℕ => p.2 ≠ q.2) extra :=
      hpw.imp (fun h => by omega)
    have hsym : Symmetric (fun p q : ι × ℕ => p.2 ≠ q.2) :=
      fun p q h => Ne.symm h
    have hpne : (w, lw) ≠ (v, lv) := by
      intro hh
      exact hne (congrArg Prod.fst hh)
    exact hpw2.forall hsym hwex hvex hpne

/-- Witness for C2 (amended): node 0 of the two-cycle 0 to 1 to 0 is a
leftover node and the conclusions hold at it. -/
theorem leftover_nodes_trailing_witness :
    ∃ lv, alGet (assignLayers [0, 1] [(0, 1), (1, 0)]) (0 : ℕ) = some lv ∧
      (∀ u lu, alGet (forwardLayers [0, 1] [(0, 1), (1, 0)]) u = some lu →
        lu < lv) ∧
      (∀ w, w ∈ [0, 1] → w ≠ 0 →
        alGet (forwardLayers [0, 1] [(0, 1), (1, 0)]) w = none →
        ∀ lw, alGet (assignLayers [0, 1] [(0, 1), (1, 0)]) w = some lw →
          lw ≠ lv) :=
  leftover_nodes_trailing [0, 1] [(0, 1), (1, 0)] 0 (by decide) (by decide)

/-- C4 (code bug): the source reads participantX.get(msg.from).x BEFORE the
not-found guard at line 119, so a message naming an unknown participant does
not get skipped with a console warning: the property access on undefined
throws a TypeError that aborts the whole render. With participant list A and
one message from the unknown B to A the render returns an error instead of a
successful layout. -/
theorem renderSequence_unknown_participant_error :
    renderSequence ["A"] [{ msgFrom := "B", msgTo := "A", text := "hi" }] =
      Except.error "TypeError: cannot read x of undefined" := by
  rfl

/-- C5 (code bug): on empty-but-present collections only the sequence
renderer returns the small finite default viewport 0 0 100 100. The
flowchart and ERD renderers spread empty arrays into Math.min and Math.max,
so they report success with the non-finite viewBox
Infinity Infinity -Infinity -Infinity instead of a small finite default
rectangle. -/
theorem empty_input_viewport :
    (renderFlowchart ([] : List ℕ) []).success = true ∧
    (renderFlowchart ([] : List ℕ) []).viewBox =
      (JSNum.posInf, JSNum.posInf, JSNum.negInf, JSNum.negInf) ∧
    (renderERD (fun _ _ _ => 0) []).success = true ∧
    (renderERD (fun _ _ _ => 0) []).viewBox =
      (JSNum.posInf, JSNum.posInf, JSNum.negInf, JSNum.negInf) ∧
    renderSequence [] [] =
      Except.ok
        { success := true,
          viewBox := (JSNum.fin 0, JSNum.fin 0, JSNum.fin 100, JSNum.fin 100) } :=
  ⟨rfl, rfl, rfl, rfl, rfl⟩

end Diagrammer
